import Mathlib

/-!
Verification of the 2026 Winter Olympics medal-count scripts.

This file gives a shallow embedding, in Lean 4, of the parse/rank core and the
report-mode glue of the two Python scripts in this repository:

* `src/olympic_medals_v2.py` — CLI report tool (`parse_medals`, `main`), and
* `src/olympics.1r.10m+.py` — Argos widget plugin (`fetch_medals`).

Strings are modelled as `List Char` / `String` (Lean `Char` is a Unicode code
point, as in Python).  The regular expressions used by the scripts are simple
enough that each is embedded as a deterministic scanner:

* `re.sub(r'<!--.*?-->', '', _, flags=re.DOTALL)` removes, left to right, each
  segment from a `<!--` marker to the nearest following `-->`; this is
  `stripComments` below.
* `r'\|\s*gold_(\w+)\s*=\s*(\d+)'` (and the silver/bronze variants) matches a
  literal `|`, optional whitespace, the literal prefix, a maximal nonempty run
  of word characters, optional whitespace, `=`, optional whitespace and a
  maximal nonempty run of digits.  Because the character classes are disjoint
  from the literals that follow them, the greedy/backtracking behaviour of the
  Python engine coincides with this maximal-munch scanner (`matchPat`), and
  `finditer`'s leftmost non-overlapping scan is `findAll`.

The character classes `\w`, `\s`, `\d` and `str.lower` are modelled by their
ASCII meaning (the data handled by the scripts — wiki template parameters and
IOC codes — is ASCII).

Python's unordered set iteration in `for code in all_codes` is modelled by a
list of codes passed explicitly (`parseWithCodes`); `parse_medals` fixes one
enumeration and a theorem below shows the result is the same for every
enumeration of the same set.  `list.sort` (a stable sort by a total key) is
modelled by `List.insertionSort`, which is also stable; with the scripts' key
the order is total, so any sort agrees.  Functions that jump forward in the
input (comment stripping, match scanning) take a fuel argument equal to the
input length so that every definition is structurally recursive and
kernel-computable.
-/

/-- ASCII model of Python's `\s` class: space, tab, newline, carriage return,
vertical tab, form feed. -/
def isPySpace (c : Char) : Bool :=
  c = ' ' || c = '\t' || c = '\n' || c = '\r' || c = '\x0b' || c = '\x0c'

/-- ASCII model of Python's `\w` class: letters, digits and underscore. -/
def isPyWord (c : Char) : Bool :=
  c.isAlphanum || c = '_'

/-- ASCII model of Python's `\d` class. -/
def isPyDigit (c : Char) : Bool :=
  c.isDigit

/-- Drop a maximal (greedy) run of `\s` characters: the `\s*` pieces of the
medal patterns. -/
def skipSpaces : List Char → List Char
  | [] => []
  | c :: r => if isPySpace c then skipSpaces r else c :: r

/-- Split off a maximal (greedy) run of `\w` characters: the `(\w+)` group. -/
def takeWord : List Char → List Char × List Char
  | [] => ([], [])
  | c :: r =>
    if isPyWord c then
      let p := takeWord r
      (c :: p.1, p.2)
    else ([], c :: r)

/-- Split off a maximal (greedy) run of `\d` characters: the `(\d+)` group. -/
def takeDigits : List Char → List Char × List Char
  | [] => ([], [])
  | c :: r =>
    if isPyDigit c then
      let p := takeDigits r
      (c :: p.1, p.2)
    else ([], c :: r)

/-- Consume an exact literal from the head of the input, as a regex literal
does; `none` if the input does not start with it. -/
def dropLit : List Char → List Char → Option (List Char)
  | [], s => some s
  | _ :: _, [] => none
  | c :: cs, d :: ds => if c = d then dropLit cs ds else none

/-- Value of a decimal digit string, as Python's `int()` on a `\d+` match. -/
def natOfDigits (ds : List Char) : Nat :=
  ds.foldl (fun n c => n * 10 + (c.toNat - '0'.toNat)) 0

/-- One attempted match of `\|\s*<pre>(\w+)\s*=\s*(\d+)` at the head of the
input.  On success, returns the captured code, the captured integer and the
rest of the input after the match. -/
def matchPat (pre : List Char) : List Char → Option (String × Nat × List Char)
  | '|' :: r0 =>
    match dropLit pre (skipSpaces r0) with
    | none => none
    | some r1 =>
      match takeWord r1 with
      | ([], _) => none
      | (w, r2) =>
        match skipSpaces r2 with
        | '=' :: r4 =>
          match takeDigits (skipSpaces r4) with
          | ([], _) => none
          | (ds, r6) => some (String.mk w, natOfDigits ds, r6)
        | _ => none
  | _ => none

/-- Leftmost non-overlapping scan for `matchPat`, as `re.finditer` produces:
on a match, resume after it; otherwise slide one character.  `fuel` bounds the
recursion; `findAll` supplies the input length, which suffices because every
step consumes at least one character. -/
def findAllF (pre : List Char) : Nat → List Char → List (String × Nat)
  | 0, _ => []
  | _ + 1, [] => []
  | fuel + 1, c :: rest =>
    match matchPat pre (c :: rest) with
    | some (code, v, r) => (code, v) :: findAllF pre fuel r
    | none => findAllF pre fuel rest

/-- All matches of one pattern family in the text, in textual order. -/
def findAll (pre : List Char) (s : List Char) : List (String × Nat) :=
  findAllF pre s.length s

/-- Does the input start with the given literal? -/
def startsWithL : List Char → List Char → Bool
  | [], _ => true
  | _ :: _, [] => false
  | c :: cs, d :: ds => c = d && startsWithL cs ds

/-- Does the literal occur anywhere in the input? -/
def containsSub (pat : List Char) : List Char → Bool
  | [] => startsWithL pat []
  | c :: rest => startsWithL pat (c :: rest) || containsSub pat rest

/-- The comment opening marker `<!--`. -/
def openMark : List Char := ['<', '!', '-', '-']

/-- The comment closing marker `-->`. -/
def closeMark : List Char := ['-', '-', '>']

/-- Find the nearest `-->` and return the input after it — the lazy `.*?-->`
part of the comment pattern.  `none` when no closing marker exists, in which
case the comment pattern has no match at this opener. -/
def splitOnClose : List Char → Option (List Char)
  | [] => none
  | c :: rest =>
    if startsWithL closeMark (c :: rest) then some (rest.drop 2)
    else splitOnClose rest

/-- `re.sub(r'<!--.*?-->', '', s, flags=re.DOTALL)`: remove each leftmost
`<!--`-to-nearest-`-->` segment; an opener with no closer is left in place
(and then nothing further can match).  Structural in `fuel`. -/
def stripCommentsF : Nat → List Char → List Char
  | 0, s => s
  | _ + 1, [] => []
  | fuel + 1, c :: rest =>
    if startsWithL openMark (c :: rest) then
      match splitOnClose ((c :: rest).drop 4) with
      | some r => stripCommentsF fuel r
      | none => c :: rest
    else c :: stripCommentsF fuel rest

/-- Comment stripping, fuelled by the input length (which suffices: each step
consumes at least one character). -/
def stripComments (s : List Char) : List Char :=
  stripCommentsF s.length s

/-- The `gold_` literal of the gold pattern. -/
def goldMark : List Char := ['g', 'o', 'l', 'd', '_']

/-- The `silver_` literal of the silver pattern. -/
def silverMark : List Char := ['s', 'i', 'l', 'v', 'e', 'r', '_']

/-- The `bronze_` literal of the bronze pattern. -/
def bronzeMark : List Char := ['b', 'r', 'o', 'n', 'z', 'e', '_']

/-- Python dict built from a match list by comprehension: the value of the
LAST pair with the given key (later matches overwrite earlier ones), `none`
when the key is absent. -/
def lastVal (ms : List (String × Nat)) (k : String) : Option Nat :=
  ((ms.filter fun p => decide (p.1 = k)).getLast?).map Prod.snd

/-- `set(golds) | set(silvers) | set(bronzes)` as a duplicate-free list of
codes.  The enumeration order of a Python set is unspecified; theorems below
show the pipeline result does not depend on it. -/
def allCodes (gm sm bm : List (String × Nat)) : List String :=
  (((gm ++ sm ++ bm).map Prod.fst)).dedup

/-- One per-country record of `parse_medals` / `fetch_medals` before rank
assignment. -/
structure MedalEntry where
  code : String
  country : String
  gold : Nat
  silver : Nat
  bronze : Nat
  total : Nat
deriving DecidableEq, Repr

/-- A medal record with its assigned rank. -/
structure RankedEntry extends MedalEntry where
  rank : Nat
deriving DecidableEq, Repr

/-- `IOC_CODES.get(code, code)`: display name lookup with the code itself as
fallback. -/
def iocGet (table : List (String × String)) (c : String) : String :=
  match table.find? fun p => decide (p.1 = c) with
  | some p => p.2
  | none => c

/-- The body of the `for code in all_codes` loop: look up the three counts
(default 0), compute the total, skip the code when the total is 0, and
otherwise build the record with the resolved display name. -/
def buildEntry (gm sm bm : List (String × Nat)) (table : List (String × String))
    (c : String) : Option MedalEntry :=
  let g := (lastVal gm c).getD 0
  let s := (lastVal sm c).getD 0
  let b := (lastVal bm c).getD 0
  let total := g + s + b
  if total = 0 then none
  else some { code := c, country := iocGet table c, gold := g, silver := s,
              bronze := b, total := total }

/-- The `results` list before sorting, built from an enumeration of the code
set. -/
def entriesFor (table : List (String × String)) (gm sm bm : List (String × Nat))
    (codes : List String) : List MedalEntry :=
  codes.filterMap (buildEntry gm sm bm table)

/-- Lexicographic (code-point) string order, total with `[] ≤ anything`: the
order Python uses to compare `str` values in sort keys. -/
def lexLe : List Char → List Char → Prop
  | [], _ => True
  | _ :: _, [] => False
  | a :: as, b :: bs => a < b ∨ (a = b ∧ lexLe as bs)

instance lexLe.instDecidable : (as bs : List Char) → Decidable (lexLe as bs)
  | [], _ => .isTrue (by simp [lexLe])
  | _ :: _, [] => .isFalse (by simp [lexLe])
  | a :: as, b :: bs =>
    have : Decidable (lexLe as bs) := lexLe.instDecidable as bs
    decidable_of_iff (a < b ∨ (a = b ∧ lexLe as bs)) (by simp [lexLe])

/-- The sort key comparison of
`results.sort(key=lambda x: (-x["gold"], -x["silver"], -x["bronze"], x["code"]))`:
`x` comes no later than `y` iff the tuple
`(-gold, -silver, -bronze, code)` of `x` is lexicographically at most that of
`y`, i.e. gold descending, then silver descending, then bronze descending,
then code ascending. -/
def keyRel (x y : MedalEntry) : Prop :=
  y.gold < x.gold ∨ (x.gold = y.gold ∧
    (y.silver < x.silver ∨ (x.silver = y.silver ∧
      (y.bronze < x.bronze ∨ (x.bronze = y.bronze ∧ lexLe x.code.data y.code.data)))))

instance keyRel.instDecidable : DecidableRel keyRel := fun x y => by
  unfold keyRel; infer_instance

/-- The sort-key order read on ranked entries (the rank and display name play
no role in it). -/
def keyRelR (x y : RankedEntry) : Prop :=
  keyRel x.toMedalEntry y.toMedalEntry

/-- The rank computed for the entry at 0-based position `i`, given the
previously ranked entry (`none` only before the first iteration, i.e. at
`i = 0`): the first entry gets rank 1; a later entry copies the predecessor's
(already assigned) rank when the (gold, silver, bronze) triples coincide and
otherwise gets its 1-based position `i + 1`. -/
def nextRank (prev : Option RankedEntry) (i : Nat) (e : MedalEntry) : Nat :=
  match prev with
  | none => 1
  | some p =>
    if e.gold = p.gold ∧ e.silver = p.silver ∧ e.bronze = p.bronze then p.rank
    else i + 1

/-- The rank-assignment loop of both scripts, threading the previously ranked
entry (whose rank the Python code reads back from `results[i - 1]`). -/
def rankGo : Option RankedEntry → Nat → List MedalEntry → List RankedEntry
  | _, _, [] => []
  | prev, i, e :: rest =>
    { toMedalEntry := e, rank := nextRank prev i e } ::
      rankGo (some { toMedalEntry := e, rank := nextRank prev i e }) (i + 1) rest

/-- Rank assignment over the whole sorted list, as the `for i, entry in
enumerate(results)` loop of both scripts. -/
def assignRanks (l : List MedalEntry) : List RankedEntry :=
  rankGo none 0 l

/-- The shared parse-and-rank pipeline, parameterised by the code→name table
(the only difference between the two scripts) and by the enumeration order of
the code set (unspecified in Python). -/
def parseWithCodes (table : List (String × String)) (wikitext : List Char)
    (codes : List String) : List RankedEntry :=
  let clean := stripComments wikitext
  let gm := findAll goldMark clean
  let sm := findAll silverMark clean
  let bm := findAll bronzeMark clean
  assignRanks (List.insertionSort keyRel (entriesFor table gm sm bm codes))

/-- The code set of a wikitext, in the canonical enumeration used by
`parse_medals` below. -/
def codesOf (wikitext : List Char) : List String :=
  let clean := stripComments wikitext
  allCodes (findAll goldMark clean) (findAll silverMark clean)
    (findAll bronzeMark clean)

def IOC_CODES : List (String × String) := [
  ("AIN", "Individual Neutral Athletes"),
  ("ALB", "Albania"),
  ("AND", "Andorra"),
  ("ARG", "Argentina"),
  ("ARM", "Armenia"),
  ("AUS", "Australia"),
  ("AUT", "Austria"),
  ("AZE", "Azerbaijan"),
  ("BEL", "Belgium"),
  ("BIH", "Bosnia and Herzegovina"),
  ("BLR", "Belarus"),
  ("BOL", "Bolivia"),
  ("BRA", "Brazil"),
  ("BUL", "Bulgaria"),
  ("CAN", "Canada"),
  ("CHI", "Chile"),
  ("CHN", "China"),
  ("COL", "Colombia"),
  ("CRO", "Croatia"),
  ("CYP", "Cyprus"),
  ("CZE", "Czech Republic"),
  ("DEN", "Denmark"),
  ("ERI", "Eritrea"),
  ("ESP", "Spain"),
  ("EST", "Estonia"),
  ("FIN", "Finland"),
  ("FRA", "France"),
  ("GBR", "Great Britain"),
  ("GEO", "Georgia"),
  ("GER", "Germany"),
  ("GRE", "Greece"),
  ("HUN", "Hungary"),
  ("ICE", "Iceland"),
  ("IND", "India"),
  ("IRI", "Iran"),
  ("IRL", "Ireland"),
  ("ISR", "Israel"),
  ("ITA", "Italy"),
  ("JAM", "Jamaica"),
  ("JPN", "Japan"),
  ("KAZ", "Kazakhstan"),
  ("KGZ", "Kyrgyzstan"),
  ("KOR", "South Korea"),
  ("KOS", "Kosovo"),
  ("LAT", "Latvia"),
  ("LBN", "Lebanon"),
  ("LIE", "Liechtenstein"),
  ("LTU", "Lithuania"),
  ("LUX", "Luxembourg"),
  ("MDA", "Moldova"),
  ("MEX", "Mexico"),
  ("MGL", "Mongolia"),
  ("MKD", "North Macedonia"),
  ("MLT", "Malta"),
  ("MNE", "Montenegro"),
  ("MON", "Monaco"),
  ("NED", "Netherlands"),
  ("NEP", "Nepal"),
  ("NGR", "Nigeria"),
  ("NOR", "Norway"),
  ("NZL", "New Zealand"),
  ("PAK", "Pakistan"),
  ("PER", "Peru"),
  ("PHI", "Philippines"),
  ("POL", "Poland"),
  ("POR", "Portugal"),
  ("PRK", "North Korea"),
  ("PUR", "Puerto Rico"),
  ("ROU", "Romania"),
  ("RSA", "South Africa"),
  ("RUS", "Russia"),
  ("SLO", "Slovenia"),
  ("SMR", "San Marino"),
  ("SRB", "Serbia"),
  ("SUI", "Switzerland"),
  ("SVK", "Slovakia"),
  ("SWE", "Sweden"),
  ("THA", "Thailand"),
  ("TPE", "Chinese Taipei"),
  ("TUR", "Turkey"),
  ("UKR", "Ukraine"),
  ("USA", "United States"),
  ("UZB", "Uzbekistan")]

def IOC_CODES_ARGOS : List (String × String) := [
  ("AIN", "Neutral Athletes"),
  ("ALB", "Albania"),
  ("AND", "Andorra"),
  ("ARG", "Argentina"),
  ("ARM", "Armenia"),
  ("AUS", "Australia"),
  ("AUT", "Austria"),
  ("AZE", "Azerbaijan"),
  ("BEL", "Belgium"),
  ("BIH", "Bosnia & Herzegovina"),
  ("BLR", "Belarus"),
  ("BOL", "Bolivia"),
  ("BRA", "Brazil"),
  ("BUL", "Bulgaria"),
  ("CAN", "Canada"),
  ("CHI", "Chile"),
  ("CHN", "China"),
  ("COL", "Colombia"),
  ("CRO", "Croatia"),
  ("CYP", "Cyprus"),
  ("CZE", "Czech Republic"),
  ("DEN", "Denmark"),
  ("ERI", "Eritrea"),
  ("ESP", "Spain"),
  ("EST", "Estonia"),
  ("FIN", "Finland"),
  ("FRA", "France"),
  ("GBR", "Great Britain"),
  ("GEO", "Georgia"),
  ("GER", "Germany"),
  ("GRE", "Greece"),
  ("HUN", "Hungary"),
  ("ICE", "Iceland"),
  ("IND", "India"),
  ("IRI", "Iran"),
  ("IRL", "Ireland"),
  ("ISR", "Israel"),
  ("ITA", "Italy"),
  ("JAM", "Jamaica"),
  ("JPN", "Japan"),
  ("KAZ", "Kazakhstan"),
  ("KGZ", "Kyrgyzstan"),
  ("KOR", "South Korea"),
  ("KOS", "Kosovo"),
  ("LAT", "Latvia"),
  ("LBN", "Lebanon"),
  ("LIE", "Liechtenstein"),
  ("LTU", "Lithuania"),
  ("LUX", "Luxembourg"),
  ("MDA", "Moldova"),
  ("MEX", "Mexico"),
  ("MGL", "Mongolia"),
  ("MKD", "North Macedonia"),
  ("MLT", "Malta"),
  ("MNE", "Montenegro"),
  ("MON", "Monaco"),
  ("NED", "Netherlands"),
  ("NEP", "Nepal"),
  ("NGR", "Nigeria"),
  ("NOR", "Norway"),
  ("NZL", "New Zealand"),
  ("PAK", "Pakistan"),
  ("PER", "Peru"),
  ("PHI", "Philippines"),
  ("POL", "Poland"),
  ("POR", "Portugal"),
  ("PRK", "North Korea"),
  ("PUR", "Puerto Rico"),
  ("ROU", "Romania"),
  ("RSA", "South Africa"),
  ("RUS", "Russia"),
  ("SLO", "Slovenia"),
  ("SMR", "San Marino"),
  ("SRB", "Serbia"),
  ("SUI", "Switzerland"),
  ("SVK", "Slovakia"),
  ("SWE", "Sweden"),
  ("THA", "Thailand"),
  ("TPE", "Chinese Taipei"),
  ("TUR", "Turkey"),
  ("UKR", "Ukraine"),
  ("USA", "United States"),
  ("UZB", "Uzbekistan")]

/-- `parse_medals` of `src/olympic_medals_v2.py`: strip comments, scan the
three pattern families, aggregate per code, drop zero totals, sort and rank. -/
def parse_medals (wikitext : List Char) : List RankedEntry :=
  parseWithCodes IOC_CODES wikitext (codesOf wikitext)

/-- The parsing portion of `fetch_medals` of `src/olympics.1r.10m+.py`: the
same pipeline with the widget script's code→name table. -/
def fetch_medals_parse (wikitext : List Char) : List RankedEntry :=
  parseWithCodes IOC_CODES_ARGOS wikitext (codesOf wikitext)

/-- ASCII model of `str.lower()`. -/
def lowerStr (s : String) : String :=
  String.mk (s.data.map Char.toLower)

/-- The report-mode `--country` predicate: the lowercased query occurs in the
lowercased country name or in the lowercased code (Python's substring `in`,
with the query lowercased once before the comprehension). -/
def countryMatch (query : String) (m : RankedEntry) : Bool :=
  containsSub (lowerStr query).data (lowerStr m.country).data ||
    containsSub (lowerStr query).data (lowerStr m.code).data

/-- Python's `l[:n]` for an `int` bound: the first `n` elements when
`0 ≤ n`, and all but the last `-n` elements when `n < 0`. -/
def pyTake (n : Int) (l : List RankedEntry) : List RankedEntry :=
  if 0 ≤ n then l.take n.toNat else l.take ((l.length : Int) + n).toNat

/-- The filter/limit steps of `main` in report mode:
`if args.country: medals = [m for m in medals if ...]` followed by
`if args.top: medals = medals[:args.top]`.  `args.top` is an `int` option and
Python's truthiness skips the slice when it is 0. -/
def reportTransform (country : Option String) (top : Option Int)
    (medals : List RankedEntry) : List RankedEntry :=
  let medals := match country with
    | some q => medals.filter (countryMatch q)
    | none => medals
  match top with
  | some n => if n = 0 then medals else pyTake n medals
  | none => medals

/-- Exit code and standard-error lines of one report-mode run.  The fetch is
abstracted as an `Except`: `fetch_wikitext` prints `Error fetching data: e`
to stderr and exits with status 1 on any exception; otherwise `main` exits
with status 1 (printing a notice, to stdout in `--oneline` mode and to stderr
otherwise) when `parse_medals` returns no entries, and with status 0 in every
other case. -/
structure ReportRun where
  exitCode : Nat
  errLines : List String
deriving DecidableEq, Repr

/-- The fetch/parse/exit control flow of `fetch_wikitext` plus `main` of
`src/olympic_medals_v2.py`, up to the point where output formatting begins. -/
def runReport (fetchRes : Except String (List Char)) (oneline : Bool) : ReportRun :=
  match fetchRes with
  | .error e => { exitCode := 1, errLines := ["Error fetching data: " ++ e] }
  | .ok wt =>
    if parse_medals wt = [] then
      { exitCode := 1, errLines := if oneline then [] else ["No medal data found."] }
    else
      { exitCode := 0, errLines := [] }

/-- The gold-pattern matches of a wikitext after comment stripping. -/
def goldsOf (wt : List Char) : List (String × Nat) :=
  findAll goldMark (stripComments wt)

/-- The silver-pattern matches of a wikitext after comment stripping. -/
def silversOf (wt : List Char) : List (String × Nat) :=
  findAll silverMark (stripComments wt)

/-- The bronze-pattern matches of a wikitext after comment stripping. -/
def bronzesOf (wt : List Char) : List (String × Nat) :=
  findAll bronzeMark (stripComments wt)

/-- Two ranked entries with identical (gold, silver, bronze) triples. -/
def tripleEqR (a b : RankedEntry) : Prop :=
  a.gold = b.gold ∧ a.silver = b.silver ∧ a.bronze = b.bronze

/-- An entry with its display name erased: two entries that agree under this
map agree on code, medals, total and (for ranked entries) rank. -/
def normC (e : MedalEntry) : MedalEntry :=
  { e with country := "" }

/-- `normC` lifted to ranked entries. -/
def normR (e : RankedEntry) : RankedEntry :=
  { e with country := "" }

/-- Dense ranking as claimed: every rank value from 1 up to any rank that
appears in the list also appears (the distinct rank values form a contiguous
range starting at 1). -/
def denseRanking (l : List RankedEntry) : Prop :=
  ∀ e ∈ l, ∀ r : Nat, r < e.rank → ∃ x ∈ l, x.rank = r + 1

/-- The ranking invariant as claimed: rank non-decreasing along the list, and
two distinct entries share a rank iff their triples are identical AND they
are adjacent in the list. -/
def rankAdjacencyClaim (l : List RankedEntry) : Prop :=
  (∀ (i j : Nat) (a b : RankedEntry), i ≤ j → l[i]? = some a → l[j]? = some b →
    a.rank ≤ b.rank) ∧
    (∀ (i j : Nat) (a b : RankedEntry), i ≠ j → l[i]? = some a → l[j]? = some b →
      (a.rank = b.rank ↔ (tripleEqR a b ∧ (i + 1 = j ∨ j + 1 = i))))

/-- Position `i` starts a run: it is the first position, or its triple
differs from its immediate predecessor's. -/
def isRunStart (l : List RankedEntry) (i : Nat) : Prop :=
  (i = 0 ∧ 0 < l.length) ∨
    ∃ j p e, i = j + 1 ∧ l[j]? = some p ∧ l[i]? = some e ∧ ¬ tripleEqR e p

/-- A wikitext assembled from any number of comment spans: each pair is a
plain segment followed by one `<!-- ... -->` comment, and `tail` is the plain
text after the last comment.  Every wikitext whose comment markers pair up
decomposes uniquely in this shape (with no opener in the plain parts and no
closer in the contents). -/
def interleave (parts : List (List Char × List Char)) (tail : List Char) : List Char :=
  match parts with
  | [] => tail
  | (p, cont) :: rest => p ++ openMark ++ cont ++ closeMark ++ interleave rest tail

/-- The plain segments of such a decomposition, joined in order (the comment
spans removed). -/
def plainConcat : List (List Char × List Char) → List Char
  | [] => []
  | (p, _) :: rest => p ++ plainConcat rest

/-- The codes matched by the three pattern families directly on a text
(no comment stripping): `codesOf wt = matchedCodes (stripComments wt)`. -/
def matchedCodes (s : List Char) : List String :=
  allCodes (findAll goldMark s) (findAll silverMark s) (findAll bronzeMark s)

/-! ### Basic properties of the embedded string order -/

theorem string_eq_of_data {a b : String} (h : a.data = b.data) : a = b := by
  cases a; cases b; simp_all

theorem lexLe_refl : ∀ s, lexLe s s
  | [] => trivial
  | _ :: r => Or.inr ⟨rfl, lexLe_refl r⟩

theorem lexLe_total : ∀ a b, lexLe a b ∨ lexLe b a
  | [], _ => Or.inl trivial
  | _ :: _, [] => Or.inr trivial
  | a :: as, b :: bs => by
    rcases lt_trichotomy a b with h | h | h
    · exact Or.inl (Or.inl h)
    · subst h
      rcases lexLe_total as bs with h2 | h2
      · exact Or.inl (Or.inr ⟨rfl, h2⟩)
      · exact Or.inr (Or.inr ⟨rfl, h2⟩)
    · exact Or.inr (Or.inl h)

theorem lexLe_trans : ∀ {a b c}, lexLe a b → lexLe b c → lexLe a c
  | [], _, _, _, _ => trivial
  | _ :: _, [], _, h1, _ => h1.elim
  | _ :: _, _ :: _, [], _, h2 => h2.elim
  | a :: as, b :: bs, c :: cs, h1, h2 => by
    rcases h1 with h1 | ⟨e1, h1⟩ <;> rcases h2 with h2 | ⟨e2, h2⟩
    · exact Or.inl (h1.trans h2)
    · exact Or.inl (e2 ▸ h1)
    · subst e1; exact Or.inl h2
    · exact Or.inr ⟨e1.trans e2, lexLe_trans h1 h2⟩

theorem lexLe_antisymm : ∀ {a b}, lexLe a b → lexLe b a → a = b
  | [], [], _, _ => rfl
  | [], _ :: _, _, h2 => h2.elim
  | _ :: _, [], h1, _ => h1.elim
  | a :: as, b :: bs, h1, h2 => by
    rcases h1 with h1 | ⟨e1, h1⟩
    · rcases h2 with h2 | ⟨e2, h2⟩
      · exact absurd (h1.trans h2) (lt_irrefl a)
      · rw [e2] at h1; exact absurd h1 (lt_irrefl _)
    · subst e1
      rcases h2 with h2 | ⟨_, h2⟩
      · exact absurd h2 (lt_irrefl a)
      · rw [lexLe_antisymm h1 h2]

/-! ### Properties of the sort-key order -/

instance : IsTrans MedalEntry keyRel := by
  constructor
  intro x y z hxy hyz
  unfold keyRel at *
  rcases hxy with h1 | ⟨e1, hxy⟩
  · rcases hyz with h2 | ⟨e2, _⟩
    · exact Or.inl (h2.trans h1)
    · exact Or.inl (by omega)
  · rcases hyz with h2 | ⟨e2, hyz⟩
    · exact Or.inl (by omega)
    · refine Or.inr ⟨e1.trans e2, ?_⟩
      rcases hxy with h1 | ⟨f1, hxy⟩
      · rcases hyz with h2 | ⟨f2, _⟩
        · exact Or.inl (h2.trans h1)
        · exact Or.inl (by omega)
      · rcases hyz with h2 | ⟨f2, hyz⟩
        · exact Or.inl (by omega)
        · refine Or.inr ⟨f1.trans f2, ?_⟩
          rcases hxy with h1 | ⟨g1, hxy⟩
          · rcases hyz with h2 | ⟨g2, _⟩
            · exact Or.inl (h2.trans h1)
            · exact Or.inl (by omega)
          · rcases hyz with h2 | ⟨g2, hyz⟩
            · exact Or.inl (by omega)
            · exact Or.inr ⟨g1.trans g2, lexLe_trans hxy hyz⟩

instance : IsTotal MedalEntry keyRel := by
  constructor
  intro x y
  unfold keyRel
  rcases lt_trichotomy x.gold y.gold with h | h | h
  · exact Or.inr (Or.inl h)
  · rcases lt_trichotomy x.silver y.silver with h2 | h2 | h2
    · exact Or.inr (Or.inr ⟨h.symm, Or.inl h2⟩)
    · rcases lt_trichotomy x.bronze y.bronze with h3 | h3 | h3
      · exact Or.inr (Or.inr ⟨h.symm, Or.inr ⟨h2.symm, Or.inl h3⟩⟩)
      · rcases lexLe_total x.code.data y.code.data with h4 | h4
        · exact Or.inl (Or.inr ⟨h, Or.inr ⟨h2, Or.inr ⟨h3, h4⟩⟩⟩)
        · exact Or.inr (Or.inr ⟨h.symm, Or.inr ⟨h2.symm, Or.inr ⟨h3.symm, h4⟩⟩⟩)
      · exact Or.inl (Or.inr ⟨h, Or.inr ⟨h2, Or.inl h3⟩⟩)
    · exact Or.inl (Or.inr ⟨h, Or.inl h2⟩)
  · exact Or.inl (Or.inl h)

/-- Two entries below each other in the key order agree on all four key
fields. -/
theorem keyRel_antisymm_fields {x y : MedalEntry} (h1 : keyRel x y) (h2 : keyRel y x) :
    x.gold = y.gold ∧ x.silver = y.silver ∧ x.bronze = y.bronze ∧ x.code = y.code := by
  unfold keyRel at h1 h2
  rcases h1 with h1 | ⟨e1, h1⟩
  · rcases h2 with h2 | ⟨e2, _⟩ <;> [exact absurd (h1.trans h2) (lt_irrefl _); omega]
  · rcases h2 with h2 | ⟨e2, h2⟩
    · omega
    · refine ⟨e1, ?_⟩
      rcases h1 with h1 | ⟨f1, h1⟩
      · rcases h2 with h2 | ⟨f2, _⟩ <;> [exact absurd (h1.trans h2) (lt_irrefl _); omega]
      · rcases h2 with h2 | ⟨f2, h2⟩
        · omega
        · refine ⟨f1, ?_⟩
          rcases h1 with h1 | ⟨g1, h1⟩
          · rcases h2 with h2 | ⟨g2, _⟩ <;> [exact absurd (h1.trans h2) (lt_irrefl _); omega]
          · rcases h2 with h2 | ⟨g2, h2⟩
            · omega
            · exact ⟨g1, string_eq_of_data (lexLe_antisymm h1 h2)⟩

/-- The key order only reads gold, silver, bronze and code: weakened to the
medal triple, `keyRel x y` says the triple of `y` is at most that of `x` in
the gold-silver-bronze lexicographic (descending) comparison. -/
theorem keyRel_tripleGe {x y : MedalEntry} (h : keyRel x y) :
    y.gold < x.gold ∨ (x.gold = y.gold ∧ (y.silver < x.silver ∨ (x.silver = y.silver ∧
      (y.bronze < x.bronze ∨ x.bronze = y.bronze)))) := by
  unfold keyRel at h
  rcases h with h | ⟨e1, h⟩
  · exact Or.inl h
  · rcases h with h | ⟨e2, h⟩
    · exact Or.inr ⟨e1, Or.inl h⟩
    · rcases h with h | ⟨e3, _⟩
      · exact Or.inr ⟨e1, Or.inr ⟨e2, Or.inl h⟩⟩
      · exact Or.inr ⟨e1, Or.inr ⟨e2, Or.inr e3⟩⟩

/-! ### Properties of the rank-assignment loop -/

theorem rankGo_length : ∀ (prev : Option RankedEntry) (i : Nat) (l : List MedalEntry),
    (rankGo prev i l).length = l.length
  | _, _, [] => rfl
  | prev, i, e :: rest => by
    simp only [rankGo, List.length_cons]
    rw [rankGo_length]

theorem rankGo_map_toMedal : ∀ (prev : Option RankedEntry) (i : Nat) (l : List MedalEntry),
    (rankGo prev i l).map (·.toMedalEntry) = l
  | _, _, [] => rfl
  | prev, i, e :: rest => by
    simp only [rankGo, List.map_cons]
    rw [rankGo_map_toMedal]

theorem rankGo_map_code : ∀ (prev : Option RankedEntry) (i : Nat) (l : List MedalEntry),
    (rankGo prev i l).map (fun e => e.code) = l.map (fun e => e.code)
  | _, _, [] => rfl
  | prev, i, e :: rest => by
    simp only [rankGo, List.map_cons]
    rw [rankGo_map_code]

/-- The rank computed by one loop step never exceeds the 1-based position,
provided the predecessor's rank did not exceed its own 1-based position. -/
theorem nextRank_le (prev : Option RankedEntry) (i : Nat) (e : MedalEntry)
    (hp : ∀ p, prev = some p → p.rank ≤ i) : nextRank prev i e ≤ i + 1 := by
  match prev with
  | none => simp [nextRank]
  | some p =>
    have := hp p rfl
    simp only [nextRank]
    split <;> omega

/-- Every rank the loop assigns at 0-based position `j` is at most the 1-based
position `i + j + 1`, provided the incoming predecessor rank is at most `i`. -/
theorem rankGo_bound : ∀ (l : List MedalEntry) (prev : Option RankedEntry) (i j : Nat)
    (e : RankedEntry), (∀ p, prev = some p → p.rank ≤ i) →
    (rankGo prev i l)[j]? = some e → e.rank ≤ i + j + 1
  | [], _, _, _, _, _, h => by simp [rankGo] at h
  | a :: rest, prev, i, 0, e, hp, h => by
    simp only [rankGo, List.getElem?_cons_zero, Option.some.injEq] at h
    subst h
    have := nextRank_le prev i a hp
    simpa using this
  | a :: rest, prev, i, j + 1, e, hp, h => by
    simp only [rankGo, List.getElem?_cons_succ] at h
    have hb := rankGo_bound rest (some { toMedalEntry := a, rank := nextRank prev i a })
      (i + 1) j e (fun p hp2 => by cases hp2; exact nextRank_le prev i a hp) h
    omega

/-- The rank assigned at position `j + 1` is the predecessor's rank exactly on
a triple match, and the 1-based position `i + j + 2` otherwise. -/
theorem rankGo_adj : ∀ (l : List MedalEntry) (prev : Option RankedEntry) (i j : Nat)
    (p e : RankedEntry),
    (rankGo prev i l)[j]? = some p → (rankGo prev i l)[j + 1]? = some e →
    e.rank = if e.gold = p.gold ∧ e.silver = p.silver ∧ e.bronze = p.bronze then p.rank
             else i + j + 2
  | [], _, _, _, _, _, h, _ => by simp [rankGo] at h
  | a :: rest, prev, i, 0, p, e, hp, he => by
    simp only [rankGo, List.getElem?_cons_zero, Option.some.injEq] at hp
    simp only [rankGo, List.getElem?_cons_succ] at he
    cases rest with
    | nil => simp [rankGo] at he
    | cons b rest2 =>
      simp only [rankGo, List.getElem?_cons_zero, Option.some.injEq] at he
      subst hp
      subst he
      simp only [nextRank]
  | a :: rest, prev, i, j + 1, p, e, hp, he => by
    simp only [rankGo, List.getElem?_cons_succ] at hp he
    have := rankGo_adj rest (some { toMedalEntry := a, rank := nextRank prev i a })
      (i + 1) j p e hp he
    rw [this]
    by_cases hc : e.gold = p.gold ∧ e.silver = p.silver ∧ e.bronze = p.bronze
    · simp [hc]
    · simp [hc]
      omega

/-! ### A sorted permutation with no effective ties is unique -/

/-- Two sorted lists that are permutations of each other are equal, provided
the order has no distinct tied elements among them. -/
theorem sorted_perm_eq {α : Type} (r : α → α → Prop) :
    ∀ {l₁ l₂ : List α}, List.Perm l₁ l₂ → l₁.Pairwise r → l₂.Pairwise r →
      (∀ a ∈ l₁, ∀ b ∈ l₁, r a b → r b a → a = b) → l₁ = l₂ := by
  intro l₁
  induction l₁ with
  | nil =>
    intro l₂ hp _ _ _
    exact (hp.symm.eq_nil).symm
  | cons a t₁ ih =>
    intro l₂ hp hs₁ hs₂ anti
    cases l₂ with
    | nil => exact absurd hp.eq_nil (by simp)
    | cons b t₂ =>
      rcases List.pairwise_cons.mp hs₁ with ⟨ha1, ht1⟩
      rcases List.pairwise_cons.mp hs₂ with ⟨hb2, ht2⟩
      by_cases hab : a = b
      · subst hab
        have htl : t₁ = t₂ := ih hp.cons_inv ht1 ht2
          (fun x hx y hy => anti x (List.mem_cons_of_mem _ hx) y (List.mem_cons_of_mem _ hy))
        rw [htl]
      · have hat2 : a ∈ t₂ := by
          rcases List.mem_cons.mp (hp.mem_iff.mp (List.mem_cons_self _ _)) with h | h
          · exact absurd h hab
          · exact h
        have hbt1 : b ∈ t₁ := by
          rcases List.mem_cons.mp (hp.symm.mem_iff.mp (List.mem_cons_self _ _)) with h | h
          · exact absurd h.symm hab
          · exact h
        exact absurd
          (anti a (List.mem_cons_self _ _) b (List.mem_cons_of_mem _ hbt1)
            (ha1 b hbt1) (hb2 a hat2)) hab

/-! ### Pipeline plumbing -/

theorem parseWithCodes_eq (table : List (String × String)) (wt : List Char)
    (codes : List String) :
    parseWithCodes table wt codes =
      assignRanks (List.insertionSort keyRel
        (entriesFor table (goldsOf wt) (silversOf wt) (bronzesOf wt) codes)) := rfl

theorem codesOf_eq (wt : List Char) :
    codesOf wt = allCodes (goldsOf wt) (silversOf wt) (bronzesOf wt) := rfl

/-- Unpacking one successful `buildEntry`: the fields are exactly the
defaulted lookups, the display name resolution, and the positive total. -/
theorem buildEntry_fields {gm sm bm : List (String × Nat)} {table : List (String × String)}
    {c : String} {e : MedalEntry} (h : buildEntry gm sm bm table c = some e) :
    e.code = c ∧ e.country = iocGet table c ∧
    e.gold = (lastVal gm c).getD 0 ∧ e.silver = (lastVal sm c).getD 0 ∧
    e.bronze = (lastVal bm c).getD 0 ∧
    e.total = e.gold + e.silver + e.bronze ∧ 0 < e.total := by
  simp only [buildEntry] at h
  split at h
  · exact absurd h (by simp)
  · rename_i htot
    have he := Option.some_inj.mp h
    subst he
    refine ⟨rfl, rfl, rfl, rfl, rfl, rfl, ?_⟩
    simpa using Nat.pos_of_ne_zero htot

/-- `buildEntry` fails only on a zero total. -/
theorem buildEntry_none {gm sm bm : List (String × Nat)} {table : List (String × String)}
    {c : String}
    (h : (lastVal gm c).getD 0 + (lastVal sm c).getD 0 + (lastVal bm c).getD 0 = 0) :
    buildEntry gm sm bm table c = none := by
  unfold buildEntry
  simp only [h]
  rfl

/-- Membership in the ranked output comes from a code of the enumeration whose
`buildEntry` succeeded. -/
theorem mem_parseWithCodes {table : List (String × String)} {wt : List Char}
    {codes : List String} {e : RankedEntry} (h : e ∈ parseWithCodes table wt codes) :
    ∃ c ∈ codes,
      buildEntry (goldsOf wt) (silversOf wt) (bronzesOf wt) table c = some e.toMedalEntry := by
  rw [parseWithCodes_eq] at h
  have h2 : e.toMedalEntry ∈ List.insertionSort keyRel
      (entriesFor table (goldsOf wt) (silversOf wt) (bronzesOf wt) codes) := by
    have hmap := rankGo_map_toMedal none 0 (List.insertionSort keyRel
      (entriesFor table (goldsOf wt) (silversOf wt) (bronzesOf wt) codes))
    rw [← hmap]
    exact List.mem_map_of_mem _ h
  have h3 := (List.mem_insertionSort keyRel).mp h2
  exact List.mem_filterMap.mp h3

/-- The ranked output is sorted by the key order whenever the input to
`assignRanks` is. -/
theorem assignRanks_pairwise {l : List MedalEntry} (h : l.Pairwise keyRel) :
    (assignRanks l).Pairwise keyRelR := by
  have hmap : (assignRanks l).map (·.toMedalEntry) = l := rankGo_map_toMedal none 0 l
  have h2 : ((assignRanks l).map (·.toMedalEntry)).Pairwise keyRel := by
    rw [hmap]; exact h
  exact (List.pairwise_map.mp h2).imp (fun hxy => hxy)

/-- The output of the pipeline is sorted by the key order. -/
theorem parseWithCodes_pairwise (table : List (String × String)) (wt : List Char)
    (codes : List String) : (parseWithCodes table wt codes).Pairwise keyRelR := by
  rw [parseWithCodes_eq]
  exact assignRanks_pairwise
    (List.sorted_insertionSort keyRel
      (entriesFor table (goldsOf wt) (silversOf wt) (bronzesOf wt) codes))

/-! ### Rank structure of the output -/

/-- The first ranked entry always has rank 1. -/
theorem assignRanks_first : ∀ (l : List MedalEntry) (e : RankedEntry),
    (assignRanks l)[0]? = some e → e.rank = 1
  | [], e, h => by simp [assignRanks, rankGo] at h
  | a :: rest, e, h => by
    simp only [assignRanks, rankGo, List.getElem?_cons_zero, Option.some.injEq] at h
    subst h
    rfl

/-- Adjacent entries of the ranked output: the later one copies the rank on a
triple match and gets its 1-based position otherwise. -/
theorem assignRanks_adj {l : List MedalEntry} {j : Nat} {p e : RankedEntry}
    (hp : (assignRanks l)[j]? = some p) (he : (assignRanks l)[j + 1]? = some e) :
    e.rank = if e.gold = p.gold ∧ e.silver = p.silver ∧ e.bronze = p.bronze then p.rank
             else j + 2 := by
  have := rankGo_adj l none 0 j p e hp he
  simpa using this

/-- Every assigned rank is at most the 1-based position. -/
theorem assignRanks_bound {l : List MedalEntry} {j : Nat} {e : RankedEntry}
    (h : (assignRanks l)[j]? = some e) : e.rank ≤ j + 1 := by
  have := rankGo_bound l none 0 j e (by simp) h
  omega

/-- In a ranked list with the adjacency/bound/sortedness structure produced by
the pipeline, ranks are monotone and two entries (at any distance) share a
rank exactly when their medal triples coincide. -/
theorem rank_pair_core (l : List RankedEntry)
    (Hadj : ∀ (j : Nat) (p e : RankedEntry), l[j]? = some p → l[j + 1]? = some e →
      e.rank = if e.gold = p.gold ∧ e.silver = p.silver ∧ e.bronze = p.bronze then p.rank
               else j + 2)
    (Hbound : ∀ (j : Nat) (e : RankedEntry), l[j]? = some e → e.rank ≤ j + 1)
    (Hsorted : l.Pairwise keyRelR) :
    ∀ (j i : Nat) (a b : RankedEntry), i ≤ j → l[i]? = some a → l[j]? = some b →
      a.rank ≤ b.rank ∧ (a.rank = b.rank ↔ tripleEqR a b) := by
  intro j
  induction j with
  | zero =>
    intro i a b hij ha hb
    have hi0 : i = 0 := Nat.le_zero.mp hij
    subst hi0
    have hab : a = b := Option.some_inj.mp (ha.symm.trans hb)
    subst hab
    exact ⟨Nat.le_refl _, by simp [tripleEqR]⟩
  | succ j ih =>
    intro i a b hij ha hb
    rcases Nat.lt_or_ge i (j + 1) with hlt | hge
    · have hlt2 : i ≤ j := by omega
      have hjlen : j < l.length := by
        have := (List.getElem?_eq_some.mp hb).1
        omega
      obtain ⟨m, hm⟩ : ∃ m, l[j]? = some m := by
        rw [List.getElem?_eq_getElem hjlen]
        exact ⟨_, rfl⟩
      obtain ⟨ih_le, ih_iff⟩ := ih i a m hlt2 ha hm
      have hadj := Hadj j m b hm hb
      by_cases hc : b.gold = m.gold ∧ b.silver = m.silver ∧ b.bronze = m.bronze
      · rw [if_pos hc] at hadj
        refine ⟨by omega, ?_⟩
        rw [hadj, ih_iff]
        obtain ⟨hc1, hc2, hc3⟩ := hc
        simp only [tripleEqR]
        constructor
        · rintro ⟨x1, x2, x3⟩
          exact ⟨by omega, by omega, by omega⟩
        · rintro ⟨x1, x2, x3⟩
          exact ⟨by omega, by omega, by omega⟩
      · rw [if_neg hc] at hadj
        have hmb : m.rank ≤ j + 1 := Hbound j m hm
        refine ⟨by omega, ?_⟩
        constructor
        · intro heq
          exfalso
          omega
        · intro htrip
          exfalso
          apply hc
          obtain ⟨t1, t2, t3⟩ := htrip
          rcases Nat.lt_or_ge i j with hij2 | hij2
          · obtain ⟨hilen, hieq⟩ := List.getElem?_eq_some.mp ha
            obtain ⟨hjlen2, hjeq⟩ := List.getElem?_eq_some.mp hm
            obtain ⟨hj1len, hj1eq⟩ := List.getElem?_eq_some.mp hb
            have k1 := List.pairwise_iff_getElem.mp Hsorted i j hilen hjlen2 hij2
            have k2 := List.pairwise_iff_getElem.mp Hsorted j (j + 1) hjlen2 hj1len
              (by omega)
            rw [hieq, hjeq] at k1
            rw [hjeq, hj1eq] at k2
            have g1 := keyRel_tripleGe k1
            have g2 := keyRel_tripleGe k2
            exact ⟨by omega, by omega, by omega⟩
          · have hieqj : i = j := by omega
            subst hieqj
            have ham : a = m := Option.some_inj.mp (ha.symm.trans hm)
            subst ham
            exact ⟨by omega, by omega, by omega⟩
    · have hieq : i = j + 1 := by omega
      subst hieq
      have hab : a = b := Option.some_inj.mp (ha.symm.trans hb)
      subst hab
      exact ⟨Nat.le_refl _, by simp [tripleEqR]⟩

/-- Membership gives a position. -/
theorem mem_getElem_aux {l : List RankedEntry} {a : RankedEntry} (h : a ∈ l) :
    ∃ i : Nat, l[i]? = some a := by
  obtain ⟨i, hi, he⟩ := List.mem_iff_getElem.mp h
  exact ⟨i, by rw [List.getElem?_eq_getElem hi, he]⟩

/-- A position gives membership. -/
theorem getElem_mem_aux {l : List RankedEntry} {a : RankedEntry} {i : Nat}
    (h : l[i]? = some a) : a ∈ l := by
  obtain ⟨hlt, he⟩ := List.getElem?_eq_some.mp h
  exact he ▸ List.getElem_mem hlt

/-- Monotone ranks and the rank-equality/triple-equality correspondence for
every output of `parse_medals`. -/
theorem parse_medals_rank_pair (wt : List Char) :
    ∀ (i j : Nat) (a b : RankedEntry), i ≤ j →
      (parse_medals wt)[i]? = some a → (parse_medals wt)[j]? = some b →
      a.rank ≤ b.rank ∧ (a.rank = b.rank ↔ tripleEqR a b) := by
  intro i j a b hij ha hb
  exact rank_pair_core (parse_medals wt)
    (fun j p e hp he => assignRanks_adj hp he)
    (fun j e h => assignRanks_bound h)
    (parseWithCodes_pairwise IOC_CODES wt (codesOf wt))
    j i a b hij ha hb

theorem tripleEqR_comm {a b : RankedEntry} : tripleEqR a b ↔ tripleEqR b a := by
  unfold tripleEqR
  constructor <;> rintro ⟨x, y, z⟩ <;> exact ⟨x.symm, y.symm, z.symm⟩

/-- Every entry's rank is the 1-based position of the start of its run. -/
theorem rank_runstart (wt : List Char) : ∀ (i : Nat) (e : RankedEntry),
    (parse_medals wt)[i]? = some e →
    ∃ k, k ≤ i ∧ isRunStart (parse_medals wt) k ∧ e.rank = k + 1 := by
  intro i
  induction i with
  | zero =>
    intro e he
    refine ⟨0, Nat.le_refl _, Or.inl ⟨rfl, ?_⟩, by rw [assignRanks_first _ _ he]⟩
    have := (List.getElem?_eq_some.mp he).1
    omega
  | succ j ih =>
    intro e he
    have hjlen : j < (parse_medals wt).length := by
      have := (List.getElem?_eq_some.mp he).1
      omega
    obtain ⟨p, hp⟩ : ∃ p, (parse_medals wt)[j]? = some p := by
      rw [List.getElem?_eq_getElem hjlen]
      exact ⟨_, rfl⟩
    have hadj := assignRanks_adj hp he
    by_cases hc : e.gold = p.gold ∧ e.silver = p.silver ∧ e.bronze = p.bronze
    · rw [if_pos hc] at hadj
      obtain ⟨k, hk, hrs, hkr⟩ := ih p hp
      exact ⟨k, by omega, hrs, by omega⟩
    · rw [if_neg hc] at hadj
      exact ⟨j + 1, Nat.le_refl _, Or.inr ⟨j, p, e, rfl, hp, he, hc⟩, by omega⟩

/-- Conversely, a run start carries an entry whose rank is its 1-based
position. -/
theorem runstart_rank (wt : List Char) (i : Nat) (h : isRunStart (parse_medals wt) i) :
    ∃ e, (parse_medals wt)[i]? = some e ∧ e.rank = i + 1 := by
  rcases h with ⟨h0, hlen⟩ | ⟨j, p, e, hi, hp, he, hc⟩
  · subst h0
    obtain ⟨e, he⟩ : ∃ e, (parse_medals wt)[0]? = some e := by
      rw [List.getElem?_eq_getElem hlen]
      exact ⟨_, rfl⟩
    exact ⟨e, he, assignRanks_first _ _ he⟩
  · subst hi
    have hadj := assignRanks_adj hp he
    have hc2 : ¬ (e.gold = p.gold ∧ e.silver = p.silver ∧ e.bronze = p.bronze) := hc
    rw [if_neg hc2] at hadj
    exact ⟨e, he, by omega⟩

/-! ### Claims C1, C2, C3 -/

/-- C1: for every wikitext input, rank assignment in `parse_medals` after
sorting proceeds exactly as specified: the first entry receives rank 1; each
subsequent entry receives the same rank as its immediate predecessor if and
only if its (gold, silver, bronze) triple exactly equals the predecessor's
triple; otherwise it receives its 1-based position `i + 2` (for 0-based
predecessor position `i`) in the sorted sequence. -/
theorem c1_rank_assignment (wt : List Char) :
    (∀ e : RankedEntry, (parse_medals wt)[0]? = some e → e.rank = 1) ∧
    (∀ (i : Nat) (p e : RankedEntry),
      (parse_medals wt)[i]? = some p → (parse_medals wt)[i + 1]? = some e →
      (e.rank = p.rank ↔ tripleEqR e p) ∧ (¬ tripleEqR e p → e.rank = i + 2)) := by
  refine ⟨fun e h => assignRanks_first _ e h, fun i p e hp he => ?_⟩
  have hadj := assignRanks_adj hp he
  have hb : p.rank ≤ i + 1 := assignRanks_bound hp
  by_cases hc : e.gold = p.gold ∧ e.silver = p.silver ∧ e.bronze = p.bronze
  · rw [if_pos hc] at hadj
    exact ⟨⟨fun _ => hc, fun _ => hadj⟩, fun hn => absurd hc hn⟩
  · rw [if_neg hc] at hadj
    constructor
    · constructor
      · intro heq
        exfalso
        omega
      · intro ht
        exact absurd ht hc
    · intro _
      exact hadj

/-- Witness for C1 at a concrete wikitext: positions 1 and 2 hold Austria and
Germany, tied at 3 golds, and the characterisation applies to them. -/
theorem c1_rank_assignment_witness :
    ((parse_medals ("| gold_NOR = 5 | gold_AUT = 3 | gold_GER = 3").toList)[1]? =
        some ⟨⟨"AUT", "Austria", 3, 0, 0, 3⟩, 2⟩ ∧
      (parse_medals ("| gold_NOR = 5 | gold_AUT = 3 | gold_GER = 3").toList)[2]? =
        some ⟨⟨"GER", "Germany", 3, 0, 0, 3⟩, 2⟩) ∧
    (((⟨⟨"GER", "Germany", 3, 0, 0, 3⟩, 2⟩ : RankedEntry).rank =
        (⟨⟨"AUT", "Austria", 3, 0, 0, 3⟩, 2⟩ : RankedEntry).rank ↔
      tripleEqR ⟨⟨"GER", "Germany", 3, 0, 0, 3⟩, 2⟩ ⟨⟨"AUT", "Austria", 3, 0, 0, 3⟩, 2⟩) ∧
     (¬ tripleEqR ⟨⟨"GER", "Germany", 3, 0, 0, 3⟩, 2⟩ ⟨⟨"AUT", "Austria", 3, 0, 0, 3⟩, 2⟩ →
        (⟨⟨"GER", "Germany", 3, 0, 0, 3⟩, 2⟩ : RankedEntry).rank = 1 + 2)) :=
  ⟨⟨by decide, by decide⟩,
    (c1_rank_assignment ("| gold_NOR = 5 | gold_AUT = 3 | gold_GER = 3").toList).2 1
      ⟨⟨"AUT", "Austria", 3, 0, 0, 3⟩, 2⟩ ⟨⟨"GER", "Germany", 3, 0, 0, 3⟩, 2⟩
      (by decide) (by decide)⟩

/-- C2 fails as stated: on golds 2, 1, 1 and one lone silver, the ranks are
1, 2, 2, 4 — rank 3 is skipped, so the distinct rank values are not a
contiguous range (the code implements standard competition ranking, not dense
ranking). -/
theorem c2_dense_ranking_counterexample :
    ¬ denseRanking (parse_medals
      ("| gold_AAA = 2 | gold_BBB = 1 | gold_CCC = 1 | silver_DDD = 1").toList) := by
  unfold denseRanking
  decide

/-- C2 (amended): ties share rank, but subsequent rank numbers ARE skipped
after a tie run: the rank values appearing in the output of `parse_medals`
are exactly the 1-based positions of run starts (positions whose triple
differs from the predecessor's), i.e. standard competition ranking. -/
theorem c2_competition_ranking (wt : List Char) (r : Nat) :
    (∃ e ∈ parse_medals wt, e.rank = r) ↔
      ∃ i, isRunStart (parse_medals wt) i ∧ r = i + 1 := by
  constructor
  · rintro ⟨e, he, hr⟩
    obtain ⟨i, hi⟩ := mem_getElem_aux he
    obtain ⟨k, _, hrs, hk⟩ := rank_runstart wt i e hi
    exact ⟨k, hrs, by omega⟩
  · rintro ⟨i, hrs, hr⟩
    obtain ⟨e, hie, herank⟩ := runstart_rank wt i hrs
    exact ⟨e, getElem_mem_aux hie, by omega⟩

/-- C3 fails as stated: with golds 2, 1, 1, 1 the entries at positions 1 and 3
have equal rank 2 and identical triples but are NOT adjacent, contradicting
the claimed "equal rank iff identical triples AND adjacent". -/
theorem c3_adjacency_counterexample :
    ¬ rankAdjacencyClaim (parse_medals
      ("| gold_AAA = 2 | gold_BBB = 1 | gold_CCC = 1 | gold_DDD = 1").toList) := by
  intro h
  have h2 := (h.2 1 3 ⟨⟨"BBB", "BBB", 1, 0, 0, 1⟩, 2⟩ ⟨⟨"DDD", "DDD", 1, 0, 0, 1⟩, 2⟩
    (by decide) (by decide) (by decide)).mp rfl
  rcases h2 with ⟨_, hadj⟩
  rcases hadj with h3 | h3 <;> omega

/-- C3 (amended): for every wikitext input, the rank field is monotonically
non-decreasing along the sorted sequence, and any two entries have equal rank
if and only if they have identical (gold, silver, bronze) triples — without
the adjacency requirement, which fails for runs of three or more ties. -/
theorem c3_rank_monotone_iff_triple (wt : List Char) :
    (∀ (i j : Nat) (a b : RankedEntry), i ≤ j → (parse_medals wt)[i]? = some a →
        (parse_medals wt)[j]? = some b → a.rank ≤ b.rank) ∧
    (∀ (i j : Nat) (a b : RankedEntry), (parse_medals wt)[i]? = some a →
        (parse_medals wt)[j]? = some b → (a.rank = b.rank ↔ tripleEqR a b)) := by
  constructor
  · intro i j a b hij ha hb
    exact (parse_medals_rank_pair wt i j a b hij ha hb).1
  · intro i j a b ha hb
    rcases Nat.le_total i j with hij | hij
    · exact (parse_medals_rank_pair wt i j a b hij ha hb).2
    · have h := (parse_medals_rank_pair wt j i b a hij hb ha).2
      constructor
      · intro heq
        exact tripleEqR_comm.mp (h.mp heq.symm)
      · intro ht
        exact (h.mpr (tripleEqR_comm.mp ht)).symm

/-- Witness for C3 (amended) at a concrete wikitext: monotonicity and the
rank/triple correspondence at positions 1 and 2. -/
theorem c3_rank_monotone_iff_triple_witness :
    ((parse_medals ("| gold_NOR = 5 | gold_AUT = 3 | gold_GER = 3").toList)[1]? =
        some ⟨⟨"AUT", "Austria", 3, 0, 0, 3⟩, 2⟩ ∧
      (parse_medals ("| gold_NOR = 5 | gold_AUT = 3 | gold_GER = 3").toList)[2]? =
        some ⟨⟨"GER", "Germany", 3, 0, 0, 3⟩, 2⟩) ∧
    (⟨⟨"AUT", "Austria", 3, 0, 0, 3⟩, 2⟩ : RankedEntry).rank ≤
      (⟨⟨"GER", "Germany", 3, 0, 0, 3⟩, 2⟩ : RankedEntry).rank ∧
    ((⟨⟨"AUT", "Austria", 3, 0, 0, 3⟩, 2⟩ : RankedEntry).rank =
        (⟨⟨"GER", "Germany", 3, 0, 0, 3⟩, 2⟩ : RankedEntry).rank ↔
      tripleEqR ⟨⟨"AUT", "Austria", 3, 0, 0, 3⟩, 2⟩ ⟨⟨"GER", "Germany", 3, 0, 0, 3⟩, 2⟩) :=
  ⟨⟨by decide, by decide⟩,
    (c3_rank_monotone_iff_triple ("| gold_NOR = 5 | gold_AUT = 3 | gold_GER = 3").toList).1
      1 2 ⟨⟨"AUT", "Austria", 3, 0, 0, 3⟩, 2⟩ ⟨⟨"GER", "Germany", 3, 0, 0, 3⟩, 2⟩
      (by decide) (by decide) (by decide),
    (c3_rank_monotone_iff_triple ("| gold_NOR = 5 | gold_AUT = 3 | gold_GER = 3").toList).2
      1 2 ⟨⟨"AUT", "Austria", 3, 0, 0, 3⟩, 2⟩ ⟨⟨"GER", "Germany", 3, 0, 0, 3⟩, 2⟩
      (by decide) (by decide)⟩

/-! ### Claims C5 and C6 -/

/-- C5: for every wikitext input, every entry in the output of `parse_medals`
satisfies `total = gold + silver + bronze` and `total > 0`; any code whose
gold, silver and bronze values (defaulting to 0 when absent from a mapping)
sum to exactly 0 is excluded entirely from the output. -/
theorem c5_total_invariant (wt : List Char) :
    (∀ e ∈ parse_medals wt, e.total = e.gold + e.silver + e.bronze ∧ 0 < e.total) ∧
    (∀ c : String,
      (lastVal (goldsOf wt) c).getD 0 + (lastVal (silversOf wt) c).getD 0 +
        (lastVal (bronzesOf wt) c).getD 0 = 0 →
      c ∉ (parse_medals wt).map (·.code)) := by
  constructor
  · intro e he
    obtain ⟨c, _, hbe⟩ := mem_parseWithCodes he
    have hf := buildEntry_fields hbe
    exact ⟨hf.2.2.2.2.2.1, hf.2.2.2.2.2.2⟩
  · intro c hzero hmem
    rw [List.mem_map] at hmem
    obtain ⟨e, he, hcode⟩ := hmem
    obtain ⟨c2, _, hbe⟩ := mem_parseWithCodes he
    have hf := buildEntry_fields hbe
    have hc2 : c2 = c := by rw [← hf.1]; exact hcode
    subst hc2
    rw [buildEntry_none hzero] at hbe
    exact Option.noConfusion hbe

/-- Witness for C5: a positive-total entry is kept with its total invariant,
and the all-zero code `XXX` is excluded. -/
theorem c5_total_invariant_witness :
    ((⟨⟨"NOR", "Norway", 1, 0, 0, 1⟩, 1⟩ : RankedEntry) ∈
        parse_medals ("| gold_NOR = 1 | gold_XXX = 0").toList ∧
      ((⟨⟨"NOR", "Norway", 1, 0, 0, 1⟩, 1⟩ : RankedEntry).total =
          (⟨⟨"NOR", "Norway", 1, 0, 0, 1⟩, 1⟩ : RankedEntry).gold +
          (⟨⟨"NOR", "Norway", 1, 0, 0, 1⟩, 1⟩ : RankedEntry).silver +
          (⟨⟨"NOR", "Norway", 1, 0, 0, 1⟩, 1⟩ : RankedEntry).bronze ∧
        0 < (⟨⟨"NOR", "Norway", 1, 0, 0, 1⟩, 1⟩ : RankedEntry).total)) ∧
    ((lastVal (goldsOf ("| gold_NOR = 1 | gold_XXX = 0").toList) "XXX").getD 0 +
        (lastVal (silversOf ("| gold_NOR = 1 | gold_XXX = 0").toList) "XXX").getD 0 +
        (lastVal (bronzesOf ("| gold_NOR = 1 | gold_XXX = 0").toList) "XXX").getD 0 = 0 ∧
      "XXX" ∉ (parse_medals ("| gold_NOR = 1 | gold_XXX = 0").toList).map (·.code)) :=
  ⟨⟨by decide,
    (c5_total_invariant ("| gold_NOR = 1 | gold_XXX = 0").toList).1
      ⟨⟨"NOR", "Norway", 1, 0, 0, 1⟩, 1⟩ (by decide)⟩,
   ⟨by decide,
    (c5_total_invariant ("| gold_NOR = 1 | gold_XXX = 0").toList).2 "XXX" (by decide)⟩⟩

/-- C6: for each pattern family, the value an output entry carries for its
code is the value of the LAST match of that family for that code in textual
order (`lastVal` of the match list produced by the in-order scan `findAll`),
not the sum of all matches. -/
theorem c6_last_match_overwrites (wt : List Char) :
    ∀ e ∈ parse_medals wt,
      e.gold = (lastVal (goldsOf wt) e.code).getD 0 ∧
      e.silver = (lastVal (silversOf wt) e.code).getD 0 ∧
      e.bronze = (lastVal (bronzesOf wt) e.code).getD 0 := by
  intro e he
  obtain ⟨c, _, hbe⟩ := mem_parseWithCodes he
  have hf := buildEntry_fields hbe
  rw [hf.1]
  exact ⟨hf.2.2.1, hf.2.2.2.1, hf.2.2.2.2.1⟩

/-- Witness for C6: with two `gold_NOR` assignments (1 then 5), the entry
carries 5 — the last match, not the sum 6. -/
theorem c6_last_match_overwrites_witness :
    ((⟨⟨"NOR", "Norway", 5, 0, 0, 5⟩, 1⟩ : RankedEntry) ∈
        parse_medals ("| gold_NOR = 1 | gold_NOR = 5").toList ∧
      lastVal (goldsOf ("| gold_NOR = 1 | gold_NOR = 5").toList) "NOR" = some 5) ∧
    ((⟨⟨"NOR", "Norway", 5, 0, 0, 5⟩, 1⟩ : RankedEntry).gold =
        (lastVal (goldsOf ("| gold_NOR = 1 | gold_NOR = 5").toList)
          (⟨⟨"NOR", "Norway", 5, 0, 0, 5⟩, 1⟩ : RankedEntry).code).getD 0 ∧
      (⟨⟨"NOR", "Norway", 5, 0, 0, 5⟩, 1⟩ : RankedEntry).silver =
        (lastVal (silversOf ("| gold_NOR = 1 | gold_NOR = 5").toList)
          (⟨⟨"NOR", "Norway", 5, 0, 0, 5⟩, 1⟩ : RankedEntry).code).getD 0 ∧
      (⟨⟨"NOR", "Norway", 5, 0, 0, 5⟩, 1⟩ : RankedEntry).bronze =
        (lastVal (bronzesOf ("| gold_NOR = 1 | gold_NOR = 5").toList)
          (⟨⟨"NOR", "Norway", 5, 0, 0, 5⟩, 1⟩ : RankedEntry).code).getD 0) :=
  ⟨⟨by decide, by decide⟩,
    c6_last_match_overwrites ("| gold_NOR = 1 | gold_NOR = 5").toList
      ⟨⟨"NOR", "Norway", 5, 0, 0, 5⟩, 1⟩ (by decide)⟩

/-! ### Claim C4 -/

/-- Every entry of `entriesFor` carries a code from the enumeration. -/
theorem mem_entriesFor_code {table : List (String × String)} {gm sm bm : List (String × Nat)}
    {codes : List String} {e : MedalEntry} (h : e ∈ entriesFor table gm sm bm codes) :
    e.code ∈ codes := by
  obtain ⟨c, hc, hbe⟩ := List.mem_filterMap.mp h
  rw [(buildEntry_fields hbe).1]
  exact hc

/-- Distinct codes in, distinct codes out. -/
theorem entriesFor_codes_nodup {table : List (String × String)}
    {gm sm bm : List (String × Nat)} : ∀ {codes : List String}, codes.Nodup →
    ((entriesFor table gm sm bm codes).map (·.code)).Nodup := by
  intro codes
  induction codes with
  | nil =>
    intro _
    simp [entriesFor]
  | cons c cs ih =>
    intro hnd
    rw [List.nodup_cons] at hnd
    simp only [entriesFor, List.filterMap_cons]
    cases hbe : buildEntry gm sm bm table c with
    | none => exact ih hnd.2
    | some e =>
      simp only [List.map_cons, List.nodup_cons]
      refine ⟨?_, ih hnd.2⟩
      intro hmem
      rw [List.mem_map] at hmem
      obtain ⟨x, hx, hxcode⟩ := hmem
      have hxc : x.code ∈ cs := mem_entriesFor_code hx
      have hec : e.code = c := (buildEntry_fields hbe).1
      rw [hxcode, hec] at hxc
      exact hnd.1 hxc

/-- C4: for every wikitext input, the output list of `parse_medals` is sorted
by gold descending, then silver descending, then bronze descending, then code
ascending (`keyRelR`); the codes of distinct entries differ (the code list is
duplicate-free), and the output is uniquely determined by the input: the
pipeline gives the same list for EVERY enumeration of the unordered code set,
despite the intermediate use of unordered Python sets. -/
theorem c4_sorted_deterministic (wt : List Char) :
    (parse_medals wt).Pairwise keyRelR ∧
    ((parse_medals wt).map (·.code)).Nodup ∧
    (∀ codes' : List String, List.Perm codes' (codesOf wt) →
      parseWithCodes IOC_CODES wt codes' = parse_medals wt) := by
  refine ⟨parseWithCodes_pairwise IOC_CODES wt (codesOf wt), ?_, ?_⟩
  · have hnodup : (codesOf wt).Nodup := by
      rw [codesOf_eq]
      exact List.nodup_dedup _
    have hE : ((entriesFor IOC_CODES (goldsOf wt) (silversOf wt) (bronzesOf wt)
        (codesOf wt)).map (fun e => e.code)).Nodup := entriesFor_codes_nodup hnodup
    have hmapeq : (parse_medals wt).map (fun e => e.code) =
        (List.insertionSort keyRel (entriesFor IOC_CODES (goldsOf wt) (silversOf wt)
          (bronzesOf wt) (codesOf wt))).map (fun e => e.code) :=
      rankGo_map_code none 0 _
    have hperm2 : List.Perm
        ((List.insertionSort keyRel (entriesFor IOC_CODES (goldsOf wt) (silversOf wt)
          (bronzesOf wt) (codesOf wt))).map (fun e => e.code))
        ((entriesFor IOC_CODES (goldsOf wt) (silversOf wt) (bronzesOf wt)
          (codesOf wt)).map (fun e => e.code)) :=
      (List.perm_insertionSort keyRel _).map _
    show ((parse_medals wt).map (fun e => e.code)).Nodup
    rw [hmapeq]
    exact hperm2.nodup_iff.mpr hE
  · intro codes' hperm
    have key : List.insertionSort keyRel
        (entriesFor IOC_CODES (goldsOf wt) (silversOf wt) (bronzesOf wt) codes') =
        List.insertionSort keyRel
        (entriesFor IOC_CODES (goldsOf wt) (silversOf wt) (bronzesOf wt) (codesOf wt)) := by
      refine sorted_perm_eq keyRel ?_ ?_ ?_ ?_
      · exact ((List.perm_insertionSort keyRel _).trans
          (hperm.filterMap _)).trans (List.perm_insertionSort keyRel _).symm
      · exact List.sorted_insertionSort keyRel _
      · exact List.sorted_insertionSort keyRel _
      · intro a ha b hb hab hba
        have ha2 := (List.mem_insertionSort keyRel).mp ha
        have hb2 := (List.mem_insertionSort keyRel).mp hb
        obtain ⟨ca, hca, hbea⟩ := List.mem_filterMap.mp ha2
        obtain ⟨cb, hcb, hbeb⟩ := List.mem_filterMap.mp hb2
        have h4 := keyRel_antisymm_fields hab hba
        have hceq : ca = cb := by
          rw [← (buildEntry_fields hbea).1, ← (buildEntry_fields hbeb).1]
          exact h4.2.2.2
        rw [hceq] at hbea
        exact Option.some_inj.mp (hbea.symm.trans hbeb)
    rw [parseWithCodes_eq, key]
    rfl

/-- Witness for C4: a nontrivial enumeration of the code set yields the very
same output list. -/
theorem c4_sorted_deterministic_witness :
    List.Perm ["NOR", "USA"] (codesOf ("| gold_USA = 1 | gold_NOR = 2").toList) ∧
    parseWithCodes IOC_CODES ("| gold_USA = 1 | gold_NOR = 2").toList ["NOR", "USA"] =
      parse_medals ("| gold_USA = 1 | gold_NOR = 2").toList :=
  ⟨by decide, (c4_sorted_deterministic ("| gold_USA = 1 | gold_NOR = 2").toList).2.2
    ["NOR", "USA"] (by decide)⟩

/-! ### Claim C10: the two scripts' parse pipelines agree up to display names -/

/-- The sort key ignores the display name. -/
theorem normC_keyRel (a b : MedalEntry) : keyRel (normC a) (normC b) ↔ keyRel a b :=
  Iff.rfl

/-- `buildEntry` with two different tables differs at most in the display
name. -/
theorem buildEntry_norm (gm sm bm : List (String × Nat)) (t₁ t₂ : List (String × String))
    (c : String) :
    (buildEntry gm sm bm t₁ c).map normC = (buildEntry gm sm bm t₂ c).map normC := by
  simp only [buildEntry]
  by_cases h : (lastVal gm c).getD 0 + (lastVal sm c).getD 0 + (lastVal bm c).getD 0 = 0
  · rw [if_pos h, if_pos h]
  · rw [if_neg h, if_neg h]
    rfl

/-- The pre-sort entry lists built from two tables agree after erasing
display names. -/
theorem entriesFor_norm (t₁ t₂ : List (String × String)) (gm sm bm : List (String × Nat)) :
    ∀ codes : List String,
    (entriesFor t₁ gm sm bm codes).map normC = (entriesFor t₂ gm sm bm codes).map normC := by
  intro codes
  induction codes with
  | nil => rfl
  | cons c cs ih =>
    simp only [entriesFor, List.filterMap_cons]
    have hb := buildEntry_norm gm sm bm t₁ t₂ c
    cases h1 : buildEntry gm sm bm t₁ c with
    | none =>
      cases h2 : buildEntry gm sm bm t₂ c with
      | none => exact ih
      | some e2 =>
        rw [h1, h2] at hb
        simp at hb
    | some e =>
      cases h2 : buildEntry gm sm bm t₂ c with
      | none =>
        rw [h1, h2] at hb
        simp at hb
      | some e2 =>
        rw [h1, h2] at hb
        simp only [Option.map_some'] at hb
        simp only [List.map_cons]
        rw [Option.some_inj.mp hb.symm]
        exact congrArg (List.cons (normC e)) ih

/-- Rank assignment commutes with erasing display names. -/
theorem rankGo_norm : ∀ (l : List MedalEntry) (prev : Option RankedEntry) (i : Nat),
    (rankGo prev i l).map normR = rankGo (prev.map normR) i (l.map normC)
  | [], _, _ => rfl
  | e :: rest, prev, i => by
    simp only [rankGo, List.map_cons]
    have hn : nextRank (prev.map normR) i (normC e) = nextRank prev i e := by
      cases prev with
      | none => rfl
      | some p => rfl
    rw [hn]
    rw [rankGo_norm rest (some { toMedalEntry := e, rank := nextRank prev i e }) (i + 1)]
    rfl

/-- Sorting commutes with erasing display names. -/
theorem insertionSort_norm (l : List MedalEntry) :
    (List.insertionSort keyRel l).map normC = (l.map normC).insertionSort keyRel :=
  List.map_insertionSort keyRel keyRel normC l (fun a _ b _ => (normC_keyRel a b).symm)

/-- C10: for every wikitext input, `parse_medals` of `olympic_medals_v2.py`
and the parsing portion of `fetch_medals` of `olympics.1r.10m+.py` produce
sequences of equal length that agree at every position on code, gold, silver,
bronze, total and rank (only display names may differ, the two code→name
tables differing at AIN and BIH). -/
theorem c10_two_scripts_agree (wt : List Char) :
    (parse_medals wt).length = (fetch_medals_parse wt).length ∧
    (∀ (i : Nat) (a b : RankedEntry),
      (parse_medals wt)[i]? = some a → (fetch_medals_parse wt)[i]? = some b →
      a.code = b.code ∧ a.gold = b.gold ∧ a.silver = b.silver ∧ a.bronze = b.bronze ∧
        a.total = b.total ∧ a.rank = b.rank) := by
  have hmain : (parse_medals wt).map normR = (fetch_medals_parse wt).map normR := by
    show (rankGo none 0 (List.insertionSort keyRel (entriesFor IOC_CODES (goldsOf wt)
        (silversOf wt) (bronzesOf wt) (codesOf wt)))).map normR =
      (rankGo none 0 (List.insertionSort keyRel (entriesFor IOC_CODES_ARGOS (goldsOf wt)
        (silversOf wt) (bronzesOf wt) (codesOf wt)))).map normR
    rw [rankGo_norm _ none 0, rankGo_norm _ none 0, insertionSort_norm, insertionSort_norm,
      entriesFor_norm IOC_CODES IOC_CODES_ARGOS (goldsOf wt) (silversOf wt) (bronzesOf wt)
        (codesOf wt)]
  constructor
  · have hlen := congrArg List.length hmain
    simpa using hlen
  · intro i a b ha hb
    have hia : ((parse_medals wt).map normR)[i]? = some (normR a) := by
      simp [ha]
    have hib : ((fetch_medals_parse wt).map normR)[i]? = some (normR b) := by
      simp [hb]
    rw [hmain] at hia
    have hnorm : normR a = normR b := Option.some_inj.mp (hia.symm.trans hib)
    have hc := congrArg (fun x : RankedEntry => x.code) hnorm
    have hg := congrArg (fun x : RankedEntry => x.gold) hnorm
    have hs := congrArg (fun x : RankedEntry => x.silver) hnorm
    have hbz := congrArg (fun x : RankedEntry => x.bronze) hnorm
    have ht := congrArg (fun x : RankedEntry => x.total) hnorm
    have hr := congrArg (fun x : RankedEntry => x.rank) hnorm
    exact ⟨hc, hg, hs, hbz, ht, hr⟩

/-- Witness for C10 at the wikitext of a single AIN gold: the two scripts
agree on every field except the display name (which differs for AIN). -/
theorem c10_two_scripts_agree_witness :
    ((parse_medals ("| gold_AIN = 1").toList)[0]? =
        some ⟨⟨"AIN", "Individual Neutral Athletes", 1, 0, 0, 1⟩, 1⟩ ∧
      (fetch_medals_parse ("| gold_AIN = 1").toList)[0]? =
        some ⟨⟨"AIN", "Neutral Athletes", 1, 0, 0, 1⟩, 1⟩) ∧
    ((⟨⟨"AIN", "Individual Neutral Athletes", 1, 0, 0, 1⟩, 1⟩ : RankedEntry).code =
        (⟨⟨"AIN", "Neutral Athletes", 1, 0, 0, 1⟩, 1⟩ : RankedEntry).code ∧
      (⟨⟨"AIN", "Individual Neutral Athletes", 1, 0, 0, 1⟩, 1⟩ : RankedEntry).gold =
        (⟨⟨"AIN", "Neutral Athletes", 1, 0, 0, 1⟩, 1⟩ : RankedEntry).gold ∧
      (⟨⟨"AIN", "Individual Neutral Athletes", 1, 0, 0, 1⟩, 1⟩ : RankedEntry).silver =
        (⟨⟨"AIN", "Neutral Athletes", 1, 0, 0, 1⟩, 1⟩ : RankedEntry).silver ∧
      (⟨⟨"AIN", "Individual Neutral Athletes", 1, 0, 0, 1⟩, 1⟩ : RankedEntry).bronze =
        (⟨⟨"AIN", "Neutral Athletes", 1, 0, 0, 1⟩, 1⟩ : RankedEntry).bronze ∧
      (⟨⟨"AIN", "Individual Neutral Athletes", 1, 0, 0, 1⟩, 1⟩ : RankedEntry).total =
        (⟨⟨"AIN", "Neutral Athletes", 1, 0, 0, 1⟩, 1⟩ : RankedEntry).total ∧
      (⟨⟨"AIN", "Individual Neutral Athletes", 1, 0, 0, 1⟩, 1⟩ : RankedEntry).rank =
        (⟨⟨"AIN", "Neutral Athletes", 1, 0, 0, 1⟩, 1⟩ : RankedEntry).rank) :=
  ⟨⟨by decide, by decide⟩,
    (c10_two_scripts_agree ("| gold_AIN = 1").toList).2 0
      ⟨⟨"AIN", "Individual Neutral Athletes", 1, 0, 0, 1⟩, 1⟩
      ⟨⟨"AIN", "Neutral Athletes", 1, 0, 0, 1⟩, 1⟩ (by decide) (by decide)⟩

/-! ### Comment stripping: structural lemmas for C7 -/

theorem startsWithL_self_append : ∀ (p s : List Char), startsWithL p (p ++ s) = true
  | [], _ => rfl
  | c :: cs, s => by
    simpa [List.cons_append, startsWithL] using startsWithL_self_append cs s

theorem startsWithL_mono : ∀ {p a : List Char} (b : List Char),
    startsWithL p a = true → startsWithL p (a ++ b) = true
  | [], _, _, _ => rfl
  | c :: cs, [], b, h => by simp [startsWithL] at h
  | c :: cs, d :: ds, b, h => by
    simp only [startsWithL, Bool.and_eq_true] at h ⊢
    exact ⟨h.1, startsWithL_mono b h.2⟩

theorem containsSub_of_starts {p s : List Char} (h : startsWithL p s = true) :
    containsSub p s = true := by
  cases s with
  | nil => exact h
  | cons c rest =>
    simp only [containsSub, Bool.or_eq_true]
    exact Or.inl h

theorem containsSub_append_left {p : List Char} :
    ∀ {a : List Char} (b : List Char), containsSub p a = true → containsSub p (a ++ b) = true
  | [], b, h => by
    have hp : p = [] := by
      cases p with
      | nil => rfl
      | cons c cs => simp [containsSub, startsWithL] at h
    subst hp
    cases b with
    | nil => rfl
    | cons x xs => simp [containsSub, startsWithL]
  | a :: as, b, h => by
    simp only [containsSub, Bool.or_eq_true] at h
    simp only [List.cons_append, containsSub, Bool.or_eq_true]
    rcases h with h | h
    · exact Or.inl (startsWithL_mono b h)
    · exact Or.inr (containsSub_append_left b h)

theorem containsSub_append_right {p : List Char} :
    ∀ (a : List Char) {b : List Char}, containsSub p b = true → containsSub p (a ++ b) = true
  | [], b, h => h
  | a :: as, b, h => by
    simp only [List.cons_append, containsSub, Bool.or_eq_true]
    exact Or.inr (containsSub_append_right as h)

/-- Splitting a `containsSub` of an append that is false. -/
theorem containsSub_append_false {p a b : List Char}
    (h : containsSub p (a ++ b) = false) :
    containsSub p a = false ∧ containsSub p b = false := by
  constructor
  · cases hv : containsSub p a with
    | false => rfl
    | true => rw [containsSub_append_left b hv] at h; simp at h
  · cases hv : containsSub p b with
    | false => rfl
    | true => rw [containsSub_append_right a hv] at h; simp at h

theorem stripCommentsF_nil : ∀ n : Nat, stripCommentsF n [] = [] := by
  intro n
  cases n <;> rfl

/-- Text with no opening marker passes through unchanged, at any fuel. -/
theorem stripCommentsF_no_open : ∀ (n : Nat) {s : List Char},
    containsSub openMark s = false → stripCommentsF n s = s := by
  intro n
  induction n with
  | zero => intro s _; rfl
  | succ n2 ih =>
    intro s hs
    cases s with
    | nil => rfl
    | cons c rest =>
      simp only [containsSub, Bool.or_eq_false_iff] at hs
      simp only [stripCommentsF]
      rw [if_neg (by simp [hs.1])]
      rw [ih hs.2]

/-- Text with no opening marker passes through `stripComments` unchanged. -/
theorem stripComments_no_open {s : List Char} (h : containsSub openMark s = false) :
    stripComments s = s :=
  stripCommentsF_no_open _ h

theorem splitOnClose_length : ∀ {s r : List Char}, splitOnClose s = some r →
    r.length ≤ s.length
  | [], r, h => by simp [splitOnClose] at h
  | c :: rest, r, h => by
    simp only [splitOnClose] at h
    split at h
    · have := Option.some_inj.mp h
      subst this
      have := List.length_drop 2 rest
      simp only [List.length_cons]
      omega
    · have := splitOnClose_length h
      simp only [List.length_cons]
      omega

/-- When the content holds no closing marker, the first closing marker after
an opener is the inserted one, and scanning resumes exactly at the suffix. -/
theorem splitOnClose_append : ∀ {content : List Char} (suf : List Char),
    containsSub closeMark content = false →
    splitOnClose ((content ++ closeMark) ++ suf) = some suf
  | [], suf, _ => by
    show splitOnClose ('-' :: '-' :: '>' :: suf) = some suf
    simp [splitOnClose, startsWithL, closeMark]
  | x :: xs, suf, h => by
    simp only [containsSub, Bool.or_eq_false_iff] at h
    show splitOnClose (x :: ((xs ++ closeMark) ++ suf)) = some suf
    simp only [splitOnClose]
    rw [if_neg ?hsw]
    case hsw =>
      intro hv
      cases xs with
      | nil =>
        simp [startsWithL, closeMark] at hv
      | cons y ys =>
        cases ys with
        | nil =>
          simp [startsWithL, closeMark] at hv
        | cons z zs =>
          simp only [List.cons_append, startsWithL, closeMark, Bool.and_eq_true,
            decide_eq_true_eq] at hv
          have hsw2 : startsWithL closeMark (x :: y :: z :: zs) = true := by
            simp only [startsWithL, closeMark, Bool.and_eq_true, decide_eq_true_eq]
            exact ⟨hv.1, hv.2.1, hv.2.2.1, trivial⟩
          rw [h.1] at hsw2
          simp at hsw2
    exact splitOnClose_append suf h.2

/-- The fuel is irrelevant once it covers the input length. -/
theorem stripCommentsF_fuel : ∀ (n m : Nat) (s : List Char),
    s.length ≤ n → s.length ≤ m → stripCommentsF n s = stripCommentsF m s := by
  intro n
  induction n with
  | zero =>
    intro m s hn _
    have : s = [] := List.length_eq_zero.mp (Nat.le_zero.mp hn)
    subst this
    rw [stripCommentsF_nil, stripCommentsF_nil]
  | succ n2 ih =>
    intro m s hn hm
    cases s with
    | nil => rw [stripCommentsF_nil, stripCommentsF_nil]
    | cons c rest =>
      cases m with
      | zero => simp at hm
      | succ m2 =>
        simp only [stripCommentsF]
        simp only [List.length_cons] at hn hm
        cases hsw : startsWithL openMark (c :: rest) with
        | false =>
          rw [if_neg (by simp [hsw]), if_neg (by simp [hsw])]
          rw [ih m2 rest (by omega) (by omega)]
        | true =>
          rw [if_pos (by simp [hsw]), if_pos (by simp [hsw])]
          cases hsp : splitOnClose ((c :: rest).drop 4) with
          | none => rfl
          | some r =>
            have hr : r.length ≤ rest.length := by
              have h1 := splitOnClose_length hsp
              have h2 : ((c :: rest).drop 4).length ≤ rest.length := by
                simp [List.length_drop]
              omega
            exact ih m2 r (by omega) (by omega)

/-- Inserting one comment (whose content holds no closing marker) after a
prefix with no opening marker: comment stripping deletes exactly that segment
and continues with the suffix. -/
theorem stripCommentsF_insert : ∀ (pre : List Char) (n : Nat) (content suf : List Char),
    containsSub openMark pre = false → containsSub closeMark content = false →
    (pre ++ openMark ++ content ++ closeMark ++ suf).length ≤ n →
    stripCommentsF n (pre ++ openMark ++ content ++ closeMark ++ suf) =
      pre ++ stripComments suf := by
  intro pre
  induction pre with
  | nil =>
    intro n content suf _ hcl hn
    simp only [List.nil_append] at hn ⊢
    cases n with
    | zero =>
      exfalso
      simp [openMark, closeMark] at hn
    | succ n2 =>
      show stripCommentsF (n2 + 1)
        ('<' :: '!' :: '-' :: '-' :: ((content ++ closeMark) ++ suf)) = stripComments suf
      simp only [stripCommentsF]
      rw [if_pos ?hpos]
      case hpos =>
        have : '<' :: '!' :: '-' :: '-' :: ((content ++ closeMark) ++ suf) =
            openMark ++ ((content ++ closeMark) ++ suf) := rfl
        rw [this]
        exact startsWithL_self_append openMark _
      rw [show ('<' :: '!' :: '-' :: '-' :: ((content ++ closeMark) ++ suf)).drop 4 =
        (content ++ closeMark) ++ suf from rfl]
      rw [splitOnClose_append suf hcl]
      have hsuf : suf.length ≤ n2 := by
        simp only [List.length_append, List.length_cons, openMark, closeMark] at hn ⊢
        simp at hn
        omega
      exact stripCommentsF_fuel n2 suf.length suf hsuf (Nat.le_refl _)
  | cons p ps ih =>
    intro n content suf hop hcl hn
    simp only [containsSub, Bool.or_eq_false_iff] at hop
    cases n with
    | zero =>
      exfalso
      simp at hn
    | succ n2 =>
      show stripCommentsF (n2 + 1)
        (p :: (ps ++ openMark ++ content ++ closeMark ++ suf)) =
        p :: (ps ++ stripComments suf)
      simp only [stripCommentsF]
      rw [if_neg ?hneg]
      case hneg =>
        intro hv
        rcases hps : ps with _ | ⟨a, ps2⟩
        · subst hps
          simp [startsWithL, openMark] at hv
        · rcases hps2 : ps2 with _ | ⟨b, ps3⟩
          · subst hps hps2
            simp [startsWithL, openMark] at hv
          · rcases hps3 : ps3 with _ | ⟨d, ps4⟩
            · subst hps hps2 hps3
              simp [startsWithL, openMark] at hv
            · subst hps hps2 hps3
              simp only [List.cons_append, List.append_assoc, startsWithL, openMark,
                Bool.and_eq_true, decide_eq_true_eq] at hv
              have hsw2 : startsWithL openMark (p :: a :: b :: d :: ps4) = true := by
                simp only [startsWithL, openMark, Bool.and_eq_true, decide_eq_true_eq]
                exact ⟨hv.1, hv.2.1, hv.2.2.1, hv.2.2.2.1, trivial⟩
              rw [hop.1] at hsw2
              simp at hsw2
      have hlen : (ps ++ openMark ++ content ++ closeMark ++ suf).length ≤ n2 := by
        simp only [List.length_append, List.length_cons] at hn ⊢
        omega
      rw [ih n2 content suf hop.2 hcl hlen]

/-- The whole pipeline reads the wikitext only through `stripComments`. -/
theorem parse_medals_congr {w1 w2 : List Char}
    (h : stripComments w1 = stripComments w2) : parse_medals w1 = parse_medals w2 := by
  simp only [parse_medals, parseWithCodes, codesOf]
  rw [h]

/-! ### Claim C7 -/

/-- Stripping a wikitext assembled from any number of comment spans removes
exactly the comments: the result is the plain segments joined with the tail.
(The scan is a single pass, as Python's `re.sub` is: an opener formed at a
junction of the joined output is not re-processed.) -/
theorem stripComments_parts : ∀ (parts : List (List Char × List Char)) (tail : List Char),
    (∀ pc ∈ parts, containsSub openMark pc.1 = false ∧
      containsSub closeMark pc.2 = false) →
    containsSub openMark tail = false →
    stripComments (interleave parts tail) = plainConcat parts ++ tail := by
  intro parts
  induction parts with
  | nil =>
    intro tail _ ht
    exact stripComments_no_open ht
  | cons pc rest ih =>
    intro tail hparts ht
    obtain ⟨p, cont⟩ := pc
    have h1 := hparts (p, cont) (List.mem_cons_self _ _)
    have hrest : ∀ pc ∈ rest, containsSub openMark pc.1 = false ∧
        containsSub closeMark pc.2 = false :=
      fun pc hpc => hparts pc (List.mem_cons_of_mem _ hpc)
    show stripComments (p ++ openMark ++ cont ++ closeMark ++ interleave rest tail) =
      (p ++ plainConcat rest) ++ tail
    simp only [stripComments]
    rw [stripCommentsF_insert p _ cont (interleave rest tail) h1.1 h1.2 (Nat.le_refl _)]
    rw [ih tail hrest ht]
    rw [List.append_assoc]

/-- C7: medal assignments whose only occurrences lie between comment opening
markers `<!--` and closing markers `-->` contribute nothing to the result.
For every wikitext assembled from any number of comment spans (each plain
segment holding no opener, each comment content no closer, so the delimiters
pair up as written — every wikitext whose comments all close decomposes this
way), comment stripping yields exactly the joined plain text, and a code with
no pattern match in that joined plain text — i.e. one mentioned only inside
the comment-delimited spans — never appears in the output of
`parse_medals`. -/
theorem c7_comments_excluded (parts : List (List Char × List Char)) (tail : List Char)
    (c : String)
    (hparts : ∀ pc ∈ parts, containsSub openMark pc.1 = false ∧
      containsSub closeMark pc.2 = false)
    (htail : containsSub openMark tail = false) :
    stripComments (interleave parts tail) = plainConcat parts ++ tail ∧
    (c ∉ matchedCodes (plainConcat parts ++ tail) →
      c ∉ (parse_medals (interleave parts tail)).map (fun e => e.code)) := by
  have hstrip := stripComments_parts parts tail hparts htail
  refine ⟨hstrip, ?_⟩
  intro h3 hmem
  rw [List.mem_map] at hmem
  obtain ⟨e, he, hcode⟩ := hmem
  obtain ⟨c2, hc2, hbe⟩ := mem_parseWithCodes he
  have hc2c : c2 = c := by
    rw [← (buildEntry_fields hbe).1]
    exact hcode
  subst hc2c
  apply h3
  have hco : codesOf (interleave parts tail) =
      matchedCodes (stripComments (interleave parts tail)) := rfl
  rw [← hstrip]
  rw [hco] at hc2
  exact hc2

/-- Witness for C7 on a wikitext with TWO comment spans: `gold_AIN` and
`gold_BIH` each live only inside a comment, so AIN is absent from the output,
while the NOR matches in the plain segments survive. -/
theorem c7_comments_excluded_witness :
    ((∀ pc ∈ ([(("| gold_NOR = 2 ").toList, (" | gold_AIN = 1 ").toList),
        ((" | silver_NOR = 1 ").toList, (" gold_BIH = 3 ").toList)] :
          List (List Char × List Char)),
        containsSub openMark pc.1 = false ∧ containsSub closeMark pc.2 = false) ∧
      containsSub openMark (" | bronze_NOR = 4 ").toList = false ∧
      "AIN" ∉ matchedCodes (plainConcat
        [(("| gold_NOR = 2 ").toList, (" | gold_AIN = 1 ").toList),
          ((" | silver_NOR = 1 ").toList, (" gold_BIH = 3 ").toList)] ++
        (" | bronze_NOR = 4 ").toList)) ∧
    (stripComments (interleave
        [(("| gold_NOR = 2 ").toList, (" | gold_AIN = 1 ").toList),
          ((" | silver_NOR = 1 ").toList, (" gold_BIH = 3 ").toList)]
        (" | bronze_NOR = 4 ").toList) =
      plainConcat
        [(("| gold_NOR = 2 ").toList, (" | gold_AIN = 1 ").toList),
          ((" | silver_NOR = 1 ").toList, (" gold_BIH = 3 ").toList)] ++
        (" | bronze_NOR = 4 ").toList ∧
    ("AIN" ∉ matchedCodes (plainConcat
        [(("| gold_NOR = 2 ").toList, (" | gold_AIN = 1 ").toList),
          ((" | silver_NOR = 1 ").toList, (" gold_BIH = 3 ").toList)] ++
        (" | bronze_NOR = 4 ").toList) →
      "AIN" ∉ (parse_medals (interleave
        [(("| gold_NOR = 2 ").toList, (" | gold_AIN = 1 ").toList),
          ((" | silver_NOR = 1 ").toList, (" gold_BIH = 3 ").toList)]
        (" | bronze_NOR = 4 ").toList)).map (fun e => e.code))) :=
  ⟨⟨by decide, by decide, by decide⟩,
    c7_comments_excluded
      [(("| gold_NOR = 2 ").toList, (" | gold_AIN = 1 ").toList),
        ((" | silver_NOR = 1 ").toList, (" gold_BIH = 3 ").toList)]
      (" | bronze_NOR = 4 ").toList "AIN" (by decide) (by decide)⟩

/-! ### Claims C8 and C9 -/

/-- The claim's reading of `--country` plus `--top N`: filter, then truncate
to the FIRST `n` entries — for every `n` that is given. -/
def reportFilterTopClaim (q : String) (n : Int) (medals : List RankedEntry) : Prop :=
  reportTransform (some q) (some n) medals =
    (medals.filter (countryMatch q)).take n.toNat

/-- C8 fails as stated at `--top 0`: Python's `if args.top:` treats 0 as
falsy and skips the slice, so the whole filtered list is returned instead of
its first 0 entries. -/
theorem c8_top_zero_counterexample :
    ¬ reportFilterTopClaim "" 0 [⟨⟨"NOR", "Norway", 1, 0, 0, 1⟩, 1⟩] := by
  unfold reportFilterTopClaim
  decide

/-- C8 (amended): the `--country` filter keeps exactly the entries whose
country name or code contains the query as a (lowercased, i.e.
case-insensitive) substring; filtering is always applied before the `--top`
truncation; with `--top N` for positive `N` the filtered list is truncated to
its first `N` entries, while `--top 0` leaves it untruncated. -/
theorem c8_filter_before_top (q : String) (n : Int) (medals : List RankedEntry) :
    (∀ m : RankedEntry, m ∈ reportTransform (some q) none medals ↔
      m ∈ medals ∧ countryMatch q m = true) ∧
    (reportTransform (some q) (some n) medals =
      reportTransform none (some n) (reportTransform (some q) none medals)) ∧
    (0 < n → reportTransform (some q) (some n) medals =
      (medals.filter (countryMatch q)).take n.toNat) ∧
    (n = 0 → reportTransform (some q) (some n) medals =
      medals.filter (countryMatch q)) := by
  refine ⟨?_, ?_, ?_, ?_⟩
  · intro m
    simp [reportTransform, List.mem_filter]
  · simp [reportTransform]
  · intro hn
    simp only [reportTransform]
    rw [if_neg (by omega)]
    simp only [pyTake]
    rw [if_pos (by omega)]
  · intro hn
    subst hn
    simp [reportTransform]

/-- Witness for C8 (amended) on a concrete list: the query `us` keeps exactly
the United States row, and `--top 1` truncates after filtering. -/
theorem c8_filter_before_top_witness :
    ((0 : Int) < 1 ∧
      reportTransform (some "us") (some 1)
          [⟨⟨"NOR", "Norway", 3, 0, 0, 3⟩, 1⟩, ⟨⟨"USA", "United States", 2, 0, 0, 2⟩, 2⟩,
            ⟨⟨"AUS", "Australia", 1, 0, 0, 1⟩, 3⟩] =
        ([⟨⟨"NOR", "Norway", 3, 0, 0, 3⟩, 1⟩, ⟨⟨"USA", "United States", 2, 0, 0, 2⟩, 2⟩,
            ⟨⟨"AUS", "Australia", 1, 0, 0, 1⟩, 3⟩].filter
          (countryMatch "us")).take (1 : Int).toNat) ∧
    ((⟨⟨"USA", "United States", 2, 0, 0, 2⟩, 2⟩ : RankedEntry) ∈
        reportTransform (some "us") none
          [⟨⟨"NOR", "Norway", 3, 0, 0, 3⟩, 1⟩, ⟨⟨"USA", "United States", 2, 0, 0, 2⟩, 2⟩,
            ⟨⟨"AUS", "Australia", 1, 0, 0, 1⟩, 3⟩] ↔
      (⟨⟨"USA", "United States", 2, 0, 0, 2⟩, 2⟩ : RankedEntry) ∈
          [⟨⟨"NOR", "Norway", 3, 0, 0, 3⟩, 1⟩, ⟨⟨"USA", "United States", 2, 0, 0, 2⟩, 2⟩,
            ⟨⟨"AUS", "Australia", 1, 0, 0, 1⟩, 3⟩] ∧
        countryMatch "us" ⟨⟨"USA", "United States", 2, 0, 0, 2⟩, 2⟩ = true) :=
  ⟨⟨by decide,
    (c8_filter_before_top "us" 1
        [⟨⟨"NOR", "Norway", 3, 0, 0, 3⟩, 1⟩, ⟨⟨"USA", "United States", 2, 0, 0, 2⟩, 2⟩,
          ⟨⟨"AUS", "Australia", 1, 0, 0, 1⟩, 3⟩]).2.2.1 (by decide)⟩,
    (c8_filter_before_top "us" 1
        [⟨⟨"NOR", "Norway", 3, 0, 0, 3⟩, 1⟩, ⟨⟨"USA", "United States", 2, 0, 0, 2⟩, 2⟩,
          ⟨⟨"AUS", "Australia", 1, 0, 0, 1⟩, 3⟩]).1
      ⟨⟨"USA", "United States", 2, 0, 0, 2⟩, 2⟩⟩

/-- C9: in report mode the process exits with status 1 exactly when the fetch
fails (having written the error message to the standard error stream) or when
the fetch succeeds but parsing yields zero qualifying entries; it exits with
status 0 in every other case. -/
theorem c9_exit_codes (f : Except String (List Char)) (oneline : Bool) :
    ((runReport f oneline).exitCode = 1 ↔
      (∃ e, f = Except.error e) ∨ (∃ wt, f = Except.ok wt ∧ parse_medals wt = [])) ∧
    ((runReport f oneline).exitCode = 0 ↔
      ∃ wt, f = Except.ok wt ∧ parse_medals wt ≠ []) ∧
    (∀ e, f = Except.error e →
      ("Error fetching data: " ++ e) ∈ (runReport f oneline).errLines) := by
  cases f with
  | error e =>
    refine ⟨by simp [runReport], by simp [runReport], ?_⟩
    intro e2 he2
    cases he2
    simp [runReport]
  | ok wt =>
    by_cases hp : parse_medals wt = [] <;>
      refine ⟨by simp [runReport, hp], by simp [runReport, hp], by intro e2 he2; cases he2⟩

/-- Witness for C9: a failed fetch writes the message and exits 1; a
successful fetch with one medal row exits 0. -/
theorem c9_exit_codes_witness :
    (("Error fetching data: " ++ "boom") ∈
        (runReport (Except.error "boom") false).errLines ∧
      (runReport (Except.error "boom") false).exitCode = 1) ∧
    (runReport (Except.ok ("| gold_NOR = 1").toList) false).exitCode = 0 :=
  ⟨⟨(c9_exit_codes (Except.error "boom") false).2.2 "boom" rfl,
    (c9_exit_codes (Except.error "boom") false).1.mpr (Or.inl ⟨"boom", rfl⟩)⟩,
    (c9_exit_codes (Except.ok ("| gold_NOR = 1").toList) false).2.1.mpr
      ⟨("| gold_NOR = 1").toList, rfl, by decide⟩⟩
